import Mathlib

/-!
# Verification of the libOpenDRIVE utility kernel

A shallow embedding of the generic numeric/geometry kernel of the
libOpenDRIVE headers (`Utils.hpp`, `Road.h`): Ramer–Douglas–Peucker
polyline simplification (`rdp`), golden-section search, ribbon-mesh
stitching (`generate_mesh_from_borders`), discrete bounding-box sampling
(`get_bbox_for_s_values`), the id-ordered road set (`SharedPtrCmp` /
`RoadSet`), and the road's station-to-lane-section floor lookup
(`Road::get_lanesection`).

Modelling conventions:
* `double` arithmetic is modelled exactly: by rationals where the source
  only ever compares square roots of nonnegative quantities (`rdp`), and
  by real numbers where genuine `sqrt`/`log` values flow into the result
  (`golden_section_search`).
* `size_t` loop indices are `Nat`.  C++ `size_t` subtraction wraps
  modulo `2^64`; the wrapped cases (`end_idx <= start_idx` in `rdp`,
  empty borders in the mesh builder) lead in C++ to out-of-range element
  accesses or empty loops, and every theorem below restricts to valid
  ranges on which truncated `Nat` subtraction agrees with the source.
* fallible operations (`throw`, lookup misses) return `Except`/`Option`.
* the recursion of `rdp` is not structurally bounded (for a negative
  epsilon the source can call itself with unchanged arguments); it is
  embedded with an explicit fuel parameter, `none` meaning that the
  computation does not terminate within the given recursion budget.
-/

set_option maxHeartbeats 1600000

namespace ODR

/-! ## Vectors (`Vec<T, Dim>` with `T` instantiated at exact scalars) -/

/-- `Vec<T, Dim>`: a `Dim`-dimensional coordinate vector. -/
abbrev Pt (D : ℕ) := Fin D → ℚ

/-- Componentwise difference, `a - b`. -/
def vsub {D : ℕ} (a b : Pt D) : Pt D := fun i => a i - b i

/-- Dot product `∑ dim, a[dim] * b[dim]`. -/
def vdot {D : ℕ} (a b : Pt D) : ℚ := ∑ i, a i * b i

/-- Squared Euclidean norm, `∑ dim, a[dim]^2`. -/
def normSq {D : ℕ} (a : Pt D) : ℚ := vdot a a

/-- Default vector returned by out-of-range `getD` accesses; all theorems
keep indices in range, where `getD` agrees with `points.at(...)` of the
source. -/
def dflt (D : ℕ) : Pt D := fun _ => 0

/-! ## `rdp` perpendicular distance (src/unnamed/part_000 lines 144-181)

The source computes, per intermediate point `x` and for the segment from
`p` to `q`:

* `delta = q - p`, `mag = sqrt(Σ delta[dim]^2)`;
* if `mag > 0` it rescales `delta` to `delta/mag` (the guard is exactly
  `0 < normSq delta`, since `sqrt` vanishes only at `0`);
* `pv = x - p`, `pvdot = delta·pv`, `ds = pvdot * delta`,
  `a = pv - ds`, `d = sqrt(Σ a[dim]^2)`.

With exact arithmetic, in the normalised branch
`ds = ((q-p)·pv / normSq (q-p)) • (q-p)`, so `d^2` is the rational value
computed below; in the unnormalised branch the raw `delta` is used.  The
source only ever compares `d` (a square root of a nonnegative value)
against `d_max` (another such square root, or `0`), which is equivalent
to comparing the squares, so the embedding works with `d^2` throughout. -/
def perpDistSq {D : ℕ} (p q x : Pt D) : ℚ :=
  let delta := vsub q p
  let pv := vsub x p
  let magSq := normSq delta
  let coeff := if 0 < magSq then vdot delta pv / magSq else vdot delta pv
  normSq (vsub pv (fun i => coeff * delta i))

/-- Distance of `points[idx]` from the chord between `points[start_idx]`
and `points[last_idx]` (squared), as computed inside the `rdp` loop. -/
def rdpDist {D : ℕ} (P : List (Pt D)) (s last idx : ℕ) : ℚ :=
  perpDistSq (P.getD s (dflt D)) (P.getD last (dflt D)) (P.getD idx (dflt D))

/-- Body of the `rdp` maximum-distance loop: update the running maximum
`d_max` (squared) and its index `d_max_idx` when `d > d_max` (on squares:
`acc.1 < dist idx`). -/
def scanStep (dist : ℕ → ℚ) (acc : ℚ × ℕ) (idx : ℕ) : ℚ × ℕ :=
  if acc.1 < dist idx then (dist idx, idx) else acc

/-- The `rdp` maximum-distance loop, starting from `d_max = 0`,
`d_max_idx = 0`. -/
def scanFold (dist : ℕ → ℚ) (l : List ℕ) : ℚ × ℕ :=
  l.foldl (scanStep dist) (0, 0)

/-- Indices visited by `for (idx = start_idx + step; idx < last_idx; idx += step)`.
`last_idx - start_idx` is always a multiple of `step` at the call sites,
so the trip count is `(last_idx - start_idx)/step - 1`.  (For `step = 0`
the C++ caller has already divided by zero computing `last_idx`.) -/
def idxList (s st last : ℕ) : List ℕ := List.range' (s + st) ((last - s) / st - 1) st

/-- `end_idx = (_end_idx > 0) ? _end_idx : points.size()`. -/
def resolveEnd {D : ℕ} (e : ℤ) (P : List (Pt D)) : ℕ := if 0 < e then e.toNat else P.length

/-- `last_idx = ((end_idx - start_idx - 1) / step) * step + start_idx`. -/
def lastIdx (s st endN : ℕ) : ℕ := (endN - s - 1) / st * st + s

/-- `rdp` (src/unnamed/part_000 lines 132-209), with an explicit recursion
budget `fuel` (`none`: the source's recursion does not finish within
`fuel` levels).  `out0` is the caller-provided output vector: the source
returns it untouched when the range holds fewer than two points, and
overwrites it otherwise.  Both recursive calls pass fresh empty vectors.
In the split branch the source copies `rec_results_1` without its last
element (`rec_results_1.end() - 1`; for an empty `rec_results_1` that is
undefined behaviour in C++, modelled here as `dropLast [] = []`, a case
no theorem below relies on) and appends `rec_results_2`. -/
def rdpF {D : ℕ} : ℕ → List (Pt D) → ℚ → List (Pt D) → ℕ → ℕ → ℤ → Option (List (Pt D))
  | 0, _, _, _, _, _, _ => none
  | fuel + 1, P, eps, out0, s, st, e =>
    let endN : ℕ := resolveEnd e P
    let last : ℕ := lastIdx s st endN
    if last + 1 - s < 2 then some out0
    else
      let m := scanFold (rdpDist P s last) (idxList s st last)
      -- `d_max > epsilon` on square roots: `eps < 0 ∨ eps^2 < d_max^2`.
      if eps < 0 ∨ eps ^ 2 < m.1 then
        match rdpF fuel P eps [] s st ((m.2 : ℤ) + 1), rdpF fuel P eps [] m.2 st (endN : ℤ) with
        | some r1, some r2 => some (r1.dropLast ++ r2)
        | _, _ => none
      else
        some [P.getD s (dflt D), P.getD last (dflt D)]

/-- The default call `rdp(points, epsilon, out)` (fresh `out`,
`start_idx = 0`, `step = 1`, `_end_idx = -1`), with enough fuel for every
terminating run on the full range. -/
def rdpRun {D : ℕ} (P : List (Pt D)) (eps : ℚ) : Option (List (Pt D)) :=
  rdpF (P.length + 1) P eps [] 0 1 (-1)

/-- The source's recursion reaches an output (for some recursion budget). -/
def rdpProduces {D : ℕ} (P : List (Pt D)) (eps : ℚ) : Prop :=
  ∃ fuel res, rdpF fuel P eps [] 0 1 (-1) = some res

/-! ## `golden_section_search` (src/unnamed/part_000 lines 86-130)

Embedded over the real numbers (the idealised semantics of the source's
`double` computation): `invphi`, `invphi2`, the up-front iteration count
`n = ceil(log(tol/h) / log(invphi))`, and the probe-reusing loop that
runs `n - 1` times. -/

/-- `invphi = (sqrt(5) - 1) / 2`. -/
noncomputable def invphi : ℝ := (Real.sqrt 5 - 1) / 2

/-- `invphi2 = (3 - sqrt(5)) / 2`. -/
noncomputable def invphi2 : ℝ := (3 - Real.sqrt 5) / 2

/-- Loop state of `golden_section_search`: the bracket `[a, b]`, its width
`h`, the probes `c < d` and the cached values `yc = f(c)`, `yd = f(d)`. -/
structure GssState where
  a : ℝ
  b : ℝ
  h : ℝ
  c : ℝ
  d : ℝ
  yc : ℝ
  yd : ℝ

/-- One iteration of the `golden_section_search` loop body. -/
noncomputable def gssStep (f : ℝ → ℝ) (s : GssState) : GssState :=
  if s.yc < s.yd then
    -- b = d; d = c; yd = yc; h = invphi * h; c = a + invphi2 * h; yc = f(c)
    ⟨s.a, s.d, invphi * s.h, s.a + invphi2 * (invphi * s.h), s.c,
      f (s.a + invphi2 * (invphi * s.h)), s.yc⟩
  else
    -- a = c; c = d; yc = yd; h = invphi * h; d = a + invphi * h; yd = f(d)
    ⟨s.c, s.b, invphi * s.h, s.d, s.c + invphi * (invphi * s.h), s.yd,
      f (s.c + invphi * (invphi * s.h))⟩

/-- Iteration count: `n = ceil(log(tol / h) / log(invphi))`. -/
noncomputable def gssIterations (tol h : ℝ) : ℤ :=
  ⌈Real.log (tol / h) / Real.log invphi⌉

/-- `golden_section_search(f, a, b, tol)`: degenerate brackets
(`h = b - a ≤ tol`) return `0.5 * (a + b)` before any evaluation of `f`;
otherwise the loop runs `n - 1` times and the midpoint of the winning
sub-bracket (`[a, d]` if `yc < yd`, else `[c, b]`) is returned. -/
noncomputable def golden_section_search (f : ℝ → ℝ) (a b tol : ℝ) : ℝ :=
  let h := b - a
  if h ≤ tol then 0.5 * (a + b)
  else
    let st := (gssStep f)^[(gssIterations tol h - 1).toNat]
      ⟨a, b, h, a + invphi2 * h, a + invphi * h, f (a + invphi2 * h), f (a + invphi * h)⟩
    if st.yc < st.yd then 0.5 * (st.a + st.d) else 0.5 * (st.c + st.b)

/-- `f` is strictly unimodal on `[a, b]` with minimiser `xm`: strictly
decreasing before `xm`, strictly increasing after. -/
def StrictUnimodalOn (f : ℝ → ℝ) (xm a b : ℝ) : Prop :=
  a ≤ xm ∧ xm ≤ b ∧
    (∀ x y, a ≤ x → x < y → y ≤ xm → f y < f x) ∧
    (∀ x y, xm ≤ x → x < y → y ≤ b → f x < f y)

/-! ## Mesh builder (src/unnamed/part_000 lines 16-20 and 49-67) -/

/-- `Mesh3D`: vertex buffer and flat triangle index buffer. -/
structure Mesh3D where
  vertices : List (Pt 3)
  indices : List ℕ
  deriving DecidableEq

/-- `generate_mesh_from_borders`: throws (`Except.error`) on mismatched
border lengths; otherwise the vertex buffer is the outer border followed
by the reversed inner border, and the index loop runs
`l_idx = 1, r_idx = num_pts - 2` while `l_idx < num_pts >> 1`, emitting
the patch `{l, l-1, r+1, r, l, r+1}`.  Since `r_idx = num_pts - 1 - l_idx`
at every iteration, the patch is written in terms of `l` alone; the trip
count is `num_pts/2 - 1` (zero when `num_pts < 2`, matching the C++ loop
which then never executes, before `num_pts - 2` could wrap). -/
def generate_mesh_from_borders (inner_border outer_border : List (Pt 3)) : Except String Mesh3D :=
  if inner_border.length ≠ outer_border.length then
    Except.error "outer and inner border line should have equal number of points"
  else
    let vertices := outer_border ++ inner_border.reverse
    let num_pts := vertices.length
    let indices :=
      (List.range' 1 (num_pts / 2 - 1)).foldl
        (fun acc l => acc ++ [l, l - 1, num_pts - l, num_pts - 1 - l, l, num_pts - l]) []
    Except.ok ⟨vertices, indices⟩

/-! ## `SharedPtrCmp` and `RoadSet` (src/unnamed/part_000 lines 33-37, src/Road.h line 38) -/

/-- The road entity (`Road.h` lines 16-36).  The spline, reference-line and
lane-section members are external collaborators (out of scope per the
spec); the scalar identity fields suffice for the set-ordering claims. -/
structure Road where
  id : ℤ
  junction : ℤ
  length : ℚ
  deriving DecidableEq

/-- `SharedPtrCmp<C, T, member>`: compares two shared entities by
`(*lhs).*member < (*rhs).*member` — a field of the pointee, never the
pointer value. -/
def SharedPtrCmp {C T : Type} [LT T] [DecidableRel (α := T) (· < ·)] (member : C → T)
    (lhs rhs : C) : Bool :=
  member lhs < member rhs

/-- Ordered-set insertion, modelling C++ `std::set::insert` on the sorted
element sequence: the element is placed at its comparator position, and
when an equivalent element is already present (neither `cmp x y` nor
`cmp y x`) the set is left unchanged. -/
def setInsert {α : Type} (cmp : α → α → Bool) : List α → α → List α
  | [], x => [x]
  | y :: ys, x =>
    if cmp x y then x :: y :: ys
    else if cmp y x then y :: setInsert cmp ys x
    else y :: ys

/-- `RoadSet = std::set<std::shared_ptr<Road>, SharedPtrCmp<Road, int, &Road::id>>`:
its iteration order is the comparator-sorted element sequence. -/
def roadSetInsert (s : List Road) (r : Road) : List Road :=
  setInsert (SharedPtrCmp Road.id) s r

/-! ## `Road::get_lanesection` (declared at src/Road.h line 21) -/

/-- The road as seen by the lane-section lookup: its total `length` and the
`std::map<double, std::shared_ptr<LaneSection>> s0_to_lanesection`
(`Road.h` line 35), modelled as its ascending key/value sequence, the
values as opaque lane-section identifiers. -/
structure RoadSections where
  length : ℚ
  s0_to_lanesection : List (ℚ × ℕ)

/-- Modelled from the spec: the body of `Road::get_lanesection` is not
under `src/` (only its declaration, `Road.h` line 21).  The spec describes
it as the floor lookup: the entry of `s0_to_lanesection` with the greatest
key `≤ s`, with half-open intervals `[s0_k, s0_{k+1})`, and for `s`
outside `[0, length)` a failing lookup that signals "no section found". -/
def get_lanesection (r : RoadSections) (s : ℚ) : Option (ℚ × ℕ) :=
  if 0 ≤ s ∧ s < r.length then (r.s0_to_lanesection.filter (fun kv => kv.1 ≤ s)).getLast?
  else none

/-! ## `Box2D` and `get_bbox_for_s_values` (src/unnamed/part_000 lines 22-30, 69-84) -/

/-- `Box2D` data: corner points with cached center/width/height. -/
structure Box2D where
  min : ℚ × ℚ
  max : ℚ × ℚ
  center : ℚ × ℚ
  width : ℚ
  height : ℚ
  deriving DecidableEq

/-- Modelled from the spec: the `Box2D(Vec2D min, Vec2D max)` constructor
body is not under `src/` (declared at src/unnamed/part_000 line 25); per
the spec it stores the corners and caches `center = (min+max)/2` and the
derived `width`/`height`. -/
def Box2D.fromCorners (mn mx : ℚ × ℚ) : Box2D :=
  ⟨mn, mx, ((mn.1 + mx.1) / 2, (mn.2 + mx.2) / 2), mx.1 - mn.1, mx.2 - mn.2⟩

/-- `get_bbox_for_s_values`: projects every sample and takes
`minmax_element` under the coordinate-0 comparator and under the
coordinate-1 comparator; only coordinate 0 (resp. 1) of the four extremal
elements is read, so the result is the componentwise min/max corner pair,
modelled by folds.  On an empty sample list the C++ dereferences the
past-the-end iterators returned by `minmax_element` (undefined behaviour,
no guard in the source): modelled as `none`. -/
def get_bbox_for_s_values (s_values : List ℚ) (get_xyz : ℚ → ℚ × ℚ) : Option Box2D :=
  match s_values.map get_xyz with
  | [] => none
  | p :: ps =>
    some (Box2D.fromCorners
      (ps.foldl (fun acc q => (min acc.1 q.1, min acc.2 q.2)) p)
      (ps.foldl (fun acc q => (max acc.1 q.1, max acc.2 q.2)) p))

/-! ## Generic list lemmas -/

/-- Folding `acc ++ g x` over a list flattens `map g` onto the accumulator. -/
theorem foldl_append_eq_join {α β : Type} (g : α → List β) :
    ∀ (l : List α) (acc : List β),
      l.foldl (fun a x => a ++ g x) acc = acc ++ (l.map g).flatten := by
  intro l
  induction l with
  | nil => intro acc; simp
  | cons x xs ih => intro acc; simp [ih, List.append_assoc]

/-- Length of a flattened map whose pieces all have length `k`. -/
theorem join_map_const_length {α β : Type} (g : α → List β) (k : ℕ)
    (hg : ∀ x, (g x).length = k) (l : List α) : ((l.map g).flatten).length = l.length * k := by
  induction l with
  | nil => simp
  | cons x xs ih => simp [ih, hg, Nat.succ_mul, Nat.add_comm]

/-! ## C3 and C4: the mesh builder -/

/-- C3: `generate_mesh_from_borders` on borders of different point counts
raises the fatal error (a thrown `runtime_error`, surfaced to the caller)
and builds nothing: the result is exactly the error, no partial mesh. -/
theorem claim_C3 (inner_border outer_border : List (Pt 3))
    (h : inner_border.length ≠ outer_border.length) :
    generate_mesh_from_borders inner_border outer_border =
      Except.error "outer and inner border line should have equal number of points" := by
  simp [generate_mesh_from_borders, h]

/-- A three-point border. -/
def innerB3 : List (Pt 3) := [fun _ => 0, fun _ => 1, fun _ => 2]

/-- A four-point border. -/
def innerB4 : List (Pt 3) := [fun _ => 0, fun _ => 1, fun _ => 2, fun _ => 3]

/-- Another four-point border. -/
def outerB4 : List (Pt 3) := [fun _ => 4, fun _ => 5, fun _ => 6, fun _ => 7]

theorem claim_C3_witness :
    innerB3.length ≠ outerB4.length ∧
      generate_mesh_from_borders innerB3 outerB4 =
        Except.error "outer and inner border line should have equal number of points" :=
  ⟨by decide, claim_C3 innerB3 outerB4 (by decide)⟩

/-- C4: for equal-length borders of `N` points, the mesh's vertex buffer
is the outer border followed by the reversed inner border (`2·N`
vertices), the index buffer holds `6·(N-1)` entries, and every index is
below the vertex count. -/
theorem claim_C4 (inner_border outer_border : List (Pt 3))
    (h : inner_border.length = outer_border.length) :
    ∃ m, generate_mesh_from_borders inner_border outer_border = Except.ok m ∧
      m.vertices = outer_border ++ inner_border.reverse ∧
      m.vertices.length = 2 * outer_border.length ∧
      m.indices.length = 6 * (outer_border.length - 1) ∧
      ∀ i ∈ m.indices, i < m.vertices.length := by
  set N := outer_border.length with hN
  have hlen : (outer_border ++ inner_border.reverse).length = 2 * N := by simp [h]; omega
  refine ⟨⟨outer_border ++ inner_border.reverse,
      (List.range' 1 ((outer_border ++ inner_border.reverse).length / 2 - 1)).foldl
        (fun acc l =>
          acc ++ [l, l - 1, (outer_border ++ inner_border.reverse).length - l,
            (outer_border ++ inner_border.reverse).length - 1 - l, l,
            (outer_border ++ inner_border.reverse).length - l]) []⟩,
    ?_, rfl, by rw [hlen], ?_, ?_⟩
  · simp [generate_mesh_from_borders, h]
  · rw [foldl_append_eq_join, List.nil_append,
      join_map_const_length
        (fun l => [l, l - 1, (outer_border ++ inner_border.reverse).length - l,
          (outer_border ++ inner_border.reverse).length - 1 - l, l,
          (outer_border ++ inner_border.reverse).length - l]) 6 (fun _ => rfl),
      List.length_range', hlen]
    omega
  · intro i hi
    rw [foldl_append_eq_join, List.nil_append] at hi
    rcases List.mem_flatten.1 hi with ⟨piece, hpiece, hip⟩
    rcases List.mem_map.1 hpiece with ⟨l, hl, rfl⟩
    have hlmem := List.mem_range'_1.1 hl
    rw [hlen] at hlmem ⊢
    have hN2 : 2 * N / 2 = N := by omega
    rw [hN2] at hlmem
    simp only [List.mem_cons, List.not_mem_nil, or_false] at hip
    rcases hlmem with ⟨hl1, hl2⟩
    rcases hip with rfl | rfl | rfl | rfl | rfl | rfl <;> omega

theorem claim_C4_witness :
    innerB4.length = outerB4.length ∧
      (∃ m, generate_mesh_from_borders innerB4 outerB4 = Except.ok m ∧
        m.vertices = outerB4 ++ innerB4.reverse ∧
        m.vertices.length = 2 * outerB4.length ∧
        m.indices.length = 6 * (outerB4.length - 1) ∧
        ∀ i ∈ m.indices, i < m.vertices.length) :=
  ⟨by decide, claim_C4 innerB4 outerB4 (by decide)⟩

/-! ## C9: `RoadSet` ordering -/

/-- The head of an ordered-set insertion is the new element or the old head. -/
theorem setInsert_head {α : Type} (cmp : α → α → Bool) :
    ∀ (l : List α) (x : α),
      (setInsert cmp l x).head? = some x ∨ (setInsert cmp l x).head? = l.head? := by
  intro l x
  cases l with
  | nil => exact Or.inl rfl
  | cons y ys =>
    by_cases h1 : cmp x y
    · exact Or.inl (by simp [setInsert, h1])
    · by_cases h2 : cmp y x <;> simp [setInsert, h1, h2]

/-- Ordered-set insertion preserves the comparator chain. -/
theorem setInsert_chain {α : Type} (cmp : α → α → Bool) :
    ∀ (l : List α) (x : α), l.Chain' (fun a b => cmp a b) →
      (setInsert cmp l x).Chain' (fun a b => cmp a b) := by
  intro l x
  induction l with
  | nil => intro _; simp [setInsert]
  | cons y ys ih =>
    intro h
    rw [List.chain'_cons'] at h
    by_cases h1 : cmp x y
    · rw [setInsert, if_pos h1, List.chain'_cons']
      refine ⟨fun z hz => ?_, List.chain'_cons'.2 h⟩
      rw [List.head?_cons, Option.mem_some_iff] at hz
      exact hz ▸ h1
    · by_cases h2 : cmp y x
      · rw [setInsert, if_neg h1, if_pos h2, List.chain'_cons']
        refine ⟨fun z hz => ?_, ih h.2⟩
        rcases setInsert_head cmp ys x with hh | hh
        · rw [hh, Option.mem_some_iff] at hz
          exact hz ▸ h2
        · exact h.1 z (hh ▸ hz)
      · rw [setInsert, if_neg h1, if_neg h2]
        exact List.chain'_cons'.2 h

/-- A road with id 3. -/
def roadA : Road := ⟨3, -1, 10⟩

/-- A road with id 1. -/
def roadB : Road := ⟨1, -1, 20⟩

/-- A road with id 2. -/
def roadC : Road := ⟨2, -1, 30⟩

/-- A road distinct from `roadC` but with the same id 2. -/
def roadD : Road := ⟨2, 5, 40⟩

/-- C9: `RoadSet` is ordered by the pointee's `id` field: insertion keeps
the iteration sequence sorted by id; inserting roads with ids 3, 1, 2
yields iteration order `[1, 2, 3]`; and inserting a second, distinct road
object with an id already present leaves the set unchanged (one element
with that id). -/
theorem claim_C9 :
    (∀ (l : List Road) (r : Road), l.Chain' (fun x y => x.id < y.id) →
        (roadSetInsert l r).Chain' (fun x y => x.id < y.id)) ∧
      (roadSetInsert (roadSetInsert (roadSetInsert [] roadA) roadB) roadC).map Road.id
          = [1, 2, 3] ∧
      roadSetInsert (roadSetInsert [] roadC) roadD = [roadC] ∧
      roadC ≠ roadD := by
  refine ⟨fun l r hl => ?_, by decide, by decide, by decide⟩
  have h := setInsert_chain (SharedPtrCmp Road.id) l r
    (hl.imp fun a b hab => by simp [SharedPtrCmp]; exact hab)
  exact h.imp fun a b hab => by simp [SharedPtrCmp] at hab; exact hab

theorem claim_C9_witness :
    [roadB, roadA].Chain' (fun x y => x.id < y.id) ∧
      (roadSetInsert [roadB, roadA] roadC).Chain' (fun x y => x.id < y.id) :=
  ⟨by simp [List.chain'_cons, roadA, roadB],
    claim_C9.1 [roadB, roadA] roadC (by simp [List.chain'_cons, roadA, roadB])⟩

/-! ## C1: `Road::get_lanesection` floor lookup -/

/-- A nonempty list has a last element. -/
theorem exists_getLast? {α : Type} :
    ∀ (l : List α), l ≠ [] → ∃ a, l.getLast? = some a := by
  intro l
  induction l with
  | nil => intro h; exact absurd rfl h
  | cons a t ih =>
    intro _
    cases t with
    | nil => exact ⟨a, rfl⟩
    | cons b u =>
      rcases ih (by simp) with ⟨x, hx⟩
      exact ⟨x, by rwa [List.getLast?_cons_cons]⟩

/-- The last element exists in the list. -/
theorem mem_of_getLast?_eq {α : Type} {l : List α} {a : α} (h : l.getLast? = some a) :
    a ∈ l := by
  rcases List.mem_getLast?_eq_getLast (l := l) (x := a) h with ⟨hne, rfl⟩
  exact List.getLast_mem hne

/-- In a key-sorted association list, every key is at most the last key. -/
theorem key_le_getLast {l : List (ℚ × ℕ)} (hp : l.Pairwise (fun a b => a.1 < b.1)) :
    ∀ x ∈ l, ∀ y, l.getLast? = some y → x.1 ≤ y.1 := by
  induction l with
  | nil => intro x hx; exact absurd hx (List.not_mem_nil x)
  | cons a t ih =>
    intro x hx y hy
    rcases List.pairwise_cons.1 hp with ⟨ha, ht⟩
    cases t with
    | nil =>
      simp at hx hy
      rw [hx, hy]
    | cons b u =>
      rw [List.getLast?_cons_cons] at hy
      rcases List.mem_cons.1 hx with rfl | hx'
      · exact le_of_lt (ha y (mem_of_getLast?_eq hy))
      · exact ih ht x hx' y hy

/-- In a key-sorted association list, keys identify entries. -/
theorem key_inj {l : List (ℚ × ℕ)} (hp : l.Pairwise (fun a b => a.1 < b.1)) :
    ∀ x ∈ l, ∀ y ∈ l, x.1 = y.1 → x = y := by
  induction l with
  | nil => intro x hx; exact absurd hx (List.not_mem_nil x)
  | cons a t ih =>
    intro x hx y hy hxy
    rcases List.pairwise_cons.1 hp with ⟨ha, ht⟩
    rcases List.mem_cons.1 hx with rfl | hx' <;> rcases List.mem_cons.1 hy with rfl | hy'
    · rfl
    · exact absurd hxy (ne_of_lt (ha y hy'))
    · exact absurd hxy.symm (ne_of_lt (ha x hx'))
    · exact ih ht x hx' y hy' hxy

/-- C1: for `s ∈ [0, length)`, `get_lanesection` returns the entry of
`s0_to_lanesection` with the greatest key `≤ s` (floor lookup); in
particular at `s` equal to a section start key the entry with exactly
that key is returned (half-open intervals); outside `[0, length)` the
lookup signals "no section found" (`none`). -/
theorem claim_C1 (r : RoadSections) (s : ℚ)
    (hsort : r.s0_to_lanesection.Pairwise (fun a b => a.1 < b.1))
    (h0 : ∃ kv ∈ r.s0_to_lanesection, kv.1 = 0) :
    (0 ≤ s → s < r.length →
      ∃ kv, get_lanesection r s = some kv ∧ kv ∈ r.s0_to_lanesection ∧ kv.1 ≤ s ∧
        (∀ kv' ∈ r.s0_to_lanesection, kv'.1 ≤ s → kv'.1 ≤ kv.1) ∧
        (∀ kv' ∈ r.s0_to_lanesection, kv'.1 = s → get_lanesection r s = some kv')) ∧
      ((s < 0 ∨ r.length ≤ s) → get_lanesection r s = none) := by
  constructor
  · intro hs0 hs1
    rcases h0 with ⟨kv0, hkv0, hkey0⟩
    set l := r.s0_to_lanesection.filter (fun kv => kv.1 ≤ s) with hl
    have hmem0 : kv0 ∈ l := List.mem_filter.2 ⟨hkv0, by simp [hkey0, hs0]⟩
    have hne : l ≠ [] := fun h => by rw [h] at hmem0; exact List.not_mem_nil kv0 hmem0
    rcases exists_getLast? l hne with ⟨kv, hkv⟩
    have hkvl : kv ∈ l := mem_of_getLast?_eq hkv
    have hkvmem : kv ∈ r.s0_to_lanesection := (List.mem_filter.1 hkvl).1
    have hkvle : kv.1 ≤ s := by
      have := (List.mem_filter.1 hkvl).2; simpa using this
    have hfloor : get_lanesection r s = some kv := by
      rw [get_lanesection, if_pos ⟨hs0, hs1⟩, ← hl, hkv]
    have hpl : l.Pairwise (fun a b => a.1 < b.1) :=
      hsort.sublist (List.filter_sublist _)
    have hmax : ∀ kv' ∈ r.s0_to_lanesection, kv'.1 ≤ s → kv'.1 ≤ kv.1 := by
      intro kv' hkv' hle
      exact key_le_getLast hpl kv' (List.mem_filter.2 ⟨hkv', by simp [hle]⟩) kv hkv
    refine ⟨kv, hfloor, hkvmem, hkvle, hmax, ?_⟩
    intro kv' hkv' hkey
    have h1 : kv'.1 ≤ kv.1 := hmax kv' hkv' (le_of_eq hkey)
    have h2 : kv.1 ≤ s := hkvle
    have : kv' = kv := key_inj hsort kv' hkv' kv hkvmem (le_antisymm h1 (hkey ▸ h2))
    rw [hfloor, this]
  · intro h
    rw [get_lanesection, if_neg]
    rintro ⟨hs0, hs1⟩
    rcases h with h | h
    · exact absurd hs0 (not_le.2 h)
    · exact absurd hs1 (not_lt.2 h)

/-- A road with two lane sections starting at stations 0 and 5. -/
def roadSecEx : RoadSections := ⟨8, [(0, 10), (5, 20)]⟩

theorem claim_C1_witness :
    (roadSecEx.s0_to_lanesection.Pairwise (fun a b => a.1 < b.1) ∧
        ∃ kv ∈ roadSecEx.s0_to_lanesection, kv.1 = 0) ∧
      ((0 ≤ (5 : ℚ) → (5 : ℚ) < roadSecEx.length →
        ∃ kv, get_lanesection roadSecEx 5 = some kv ∧ kv ∈ roadSecEx.s0_to_lanesection ∧
          kv.1 ≤ 5 ∧ (∀ kv' ∈ roadSecEx.s0_to_lanesection, kv'.1 ≤ 5 → kv'.1 ≤ kv.1) ∧
          (∀ kv' ∈ roadSecEx.s0_to_lanesection, kv'.1 = 5 →
            get_lanesection roadSecEx 5 = some kv')) ∧
        (((5 : ℚ) < 0 ∨ roadSecEx.length ≤ 5) → get_lanesection roadSecEx 5 = none)) :=
  ⟨⟨by decide, by decide⟩, claim_C1 roadSecEx 5 (by decide) (by decide)⟩

/-! ## C10: `get_bbox_for_s_values` -/

/-- The componentwise-min fold is a lower bound and is attained. -/
theorem foldl_pairmin_spec (ps : List (ℚ × ℚ)) (p : ℚ × ℚ) :
    (((ps.foldl (fun acc q => (min acc.1 q.1, min acc.2 q.2)) p).1 ≤ p.1 ∧
        (ps.foldl (fun acc q => (min acc.1 q.1, min acc.2 q.2)) p).2 ≤ p.2 ∧
        ∀ q ∈ ps, (ps.foldl (fun acc q => (min acc.1 q.1, min acc.2 q.2)) p).1 ≤ q.1 ∧
          (ps.foldl (fun acc q => (min acc.1 q.1, min acc.2 q.2)) p).2 ≤ q.2) ∧
      ((ps.foldl (fun acc q => (min acc.1 q.1, min acc.2 q.2)) p).1 = p.1 ∨
        ∃ q ∈ ps, (ps.foldl (fun acc q => (min acc.1 q.1, min acc.2 q.2)) p).1 = q.1) ∧
      ((ps.foldl (fun acc q => (min acc.1 q.1, min acc.2 q.2)) p).2 = p.2 ∨
        ∃ q ∈ ps, (ps.foldl (fun acc q => (min acc.1 q.1, min acc.2 q.2)) p).2 = q.2)) := by
  induction ps generalizing p with
  | nil => simp
  | cons q qs ih =>
    simp only [List.foldl_cons]
    rcases ih ((min p.1 q.1, min p.2 q.2)) with ⟨⟨hb1, hb2, hball⟩, hat1, hat2⟩
    refine ⟨⟨le_trans hb1 (min_le_left _ _), le_trans hb2 (min_le_left _ _), ?_⟩, ?_, ?_⟩
    · intro q' hq'
      rcases List.mem_cons.1 hq' with rfl | hq'
      · exact ⟨le_trans hb1 (min_le_right _ _), le_trans hb2 (min_le_right _ _)⟩
      · exact hball q' hq'
    · rcases hat1 with h | ⟨q', hq', h⟩
      · rcases min_choice p.1 q.1 with hm | hm
        · exact Or.inl (h.trans hm)
        · exact Or.inr ⟨q, List.mem_cons_self q qs, h.trans hm⟩
      · exact Or.inr ⟨q', List.mem_cons_of_mem q hq', h⟩
    · rcases hat2 with h | ⟨q', hq', h⟩
      · rcases min_choice p.2 q.2 with hm | hm
        · exact Or.inl (h.trans hm)
        · exact Or.inr ⟨q, List.mem_cons_self q qs, h.trans hm⟩
      · exact Or.inr ⟨q', List.mem_cons_of_mem q hq', h⟩

/-- The componentwise-max fold is an upper bound and is attained. -/
theorem foldl_pairmax_spec (ps : List (ℚ × ℚ)) (p : ℚ × ℚ) :
    ((p.1 ≤ (ps.foldl (fun acc q => (max acc.1 q.1, max acc.2 q.2)) p).1 ∧
        p.2 ≤ (ps.foldl (fun acc q => (max acc.1 q.1, max acc.2 q.2)) p).2 ∧
        ∀ q ∈ ps, q.1 ≤ (ps.foldl (fun acc q => (max acc.1 q.1, max acc.2 q.2)) p).1 ∧
          q.2 ≤ (ps.foldl (fun acc q => (max acc.1 q.1, max acc.2 q.2)) p).2) ∧
      ((ps.foldl (fun acc q => (max acc.1 q.1, max acc.2 q.2)) p).1 = p.1 ∨
        ∃ q ∈ ps, (ps.foldl (fun acc q => (max acc.1 q.1, max acc.2 q.2)) p).1 = q.1) ∧
      ((ps.foldl (fun acc q => (max acc.1 q.1, max acc.2 q.2)) p).2 = p.2 ∨
        ∃ q ∈ ps, (ps.foldl (fun acc q => (max acc.1 q.1, max acc.2 q.2)) p).2 = q.2)) := by
  induction ps generalizing p with
  | nil => simp
  | cons q qs ih =>
    simp only [List.foldl_cons]
    rcases ih ((max p.1 q.1, max p.2 q.2)) with ⟨⟨hb1, hb2, hball⟩, hat1, hat2⟩
    refine ⟨⟨le_trans (le_max_left _ _) hb1, le_trans (le_max_left _ _) hb2, ?_⟩, ?_, ?_⟩
    · intro q' hq'
      rcases List.mem_cons.1 hq' with rfl | hq'
      · exact ⟨le_trans (le_max_right _ _) hb1, le_trans (le_max_right _ _) hb2⟩
      · exact hball q' hq'
    · rcases hat1 with h | ⟨q', hq', h⟩
      · rcases max_choice p.1 q.1 with hm | hm
        · exact Or.inl (h.trans hm)
        · exact Or.inr ⟨q, List.mem_cons_self q qs, h.trans hm⟩
      · exact Or.inr ⟨q', List.mem_cons_of_mem q hq', h⟩
    · rcases hat2 with h | ⟨q', hq', h⟩
      · rcases max_choice p.2 q.2 with hm | hm
        · exact Or.inl (h.trans hm)
        · exact Or.inr ⟨q, List.mem_cons_self q qs, h.trans hm⟩
      · exact Or.inr ⟨q', List.mem_cons_of_mem q hq', h⟩

/-- C10: `get_bbox_for_s_values` is total only on nonempty sample lists
(`none` models the unguarded past-the-end dereference on an empty list);
on a nonempty list the returned box has the componentwise minima and
maxima of the projected samples as corners (each bound holds for every
sample and is attained by some sample). -/
theorem claim_C10 (s_values : List ℚ) (get_xyz : ℚ → ℚ × ℚ) :
    (s_values = [] → get_bbox_for_s_values s_values get_xyz = none) ∧
      (s_values ≠ [] →
        ∃ box, get_bbox_for_s_values s_values get_xyz = some box ∧
          (∀ s ∈ s_values, box.min.1 ≤ (get_xyz s).1 ∧ box.min.2 ≤ (get_xyz s).2 ∧
            (get_xyz s).1 ≤ box.max.1 ∧ (get_xyz s).2 ≤ box.max.2) ∧
          (∃ s ∈ s_values, (get_xyz s).1 = box.min.1) ∧
          (∃ s ∈ s_values, (get_xyz s).2 = box.min.2) ∧
          (∃ s ∈ s_values, (get_xyz s).1 = box.max.1) ∧
          (∃ s ∈ s_values, (get_xyz s).2 = box.max.2)) := by
  cases s_values with
  | nil => exact ⟨fun _ => rfl, fun h => absurd rfl h⟩
  | cons a t =>
    refine ⟨fun h => absurd h (by simp), fun _ => ?_⟩
    refine ⟨_, rfl, ?_, ?_, ?_, ?_, ?_⟩
    · rcases foldl_pairmin_spec (t.map get_xyz) (get_xyz a) with ⟨⟨hm1, hm2, hmall⟩, _, _⟩
      rcases foldl_pairmax_spec (t.map get_xyz) (get_xyz a) with ⟨⟨hx1, hx2, hxall⟩, _, _⟩
      intro s hs
      rcases List.mem_cons.1 hs with rfl | hs'
      · exact ⟨hm1, hm2, hx1, hx2⟩
      · have hmem : get_xyz s ∈ t.map get_xyz := List.mem_map_of_mem get_xyz hs'
        exact ⟨(hmall _ hmem).1, (hmall _ hmem).2, (hxall _ hmem).1, (hxall _ hmem).2⟩
    · rcases (foldl_pairmin_spec (t.map get_xyz) (get_xyz a)).2.1 with h | ⟨q, hq, h⟩
      · exact ⟨a, List.mem_cons_self a t, h.symm⟩
      · rcases List.mem_map.1 hq with ⟨s, hs, rfl⟩
        exact ⟨s, List.mem_cons_of_mem a hs, h.symm⟩
    · rcases (foldl_pairmin_spec (t.map get_xyz) (get_xyz a)).2.2 with h | ⟨q, hq, h⟩
      · exact ⟨a, List.mem_cons_self a t, h.symm⟩
      · rcases List.mem_map.1 hq with ⟨s, hs, rfl⟩
        exact ⟨s, List.mem_cons_of_mem a hs, h.symm⟩
    · rcases (foldl_pairmax_spec (t.map get_xyz) (get_xyz a)).2.1 with h | ⟨q, hq, h⟩
      · exact ⟨a, List.mem_cons_self a t, h.symm⟩
      · rcases List.mem_map.1 hq with ⟨s, hs, rfl⟩
        exact ⟨s, List.mem_cons_of_mem a hs, h.symm⟩
    · rcases (foldl_pairmax_spec (t.map get_xyz) (get_xyz a)).2.2 with h | ⟨q, hq, h⟩
      · exact ⟨a, List.mem_cons_self a t, h.symm⟩
      · rcases List.mem_map.1 hq with ⟨s, hs, rfl⟩
        exact ⟨s, List.mem_cons_of_mem a hs, h.symm⟩

theorem claim_C10_witness :
    ([(0 : ℚ), 1] ≠ ([] : List ℚ) ∧
      ∃ box, get_bbox_for_s_values [(0 : ℚ), 1] (fun s => (s, 2 * s)) = some box ∧
        (∀ s ∈ [(0 : ℚ), 1], box.min.1 ≤ s ∧ box.min.2 ≤ 2 * s ∧
          s ≤ box.max.1 ∧ 2 * s ≤ box.max.2) ∧
        (∃ s ∈ [(0 : ℚ), 1], s = box.min.1) ∧
        (∃ s ∈ [(0 : ℚ), 1], 2 * s = box.min.2) ∧
        (∃ s ∈ [(0 : ℚ), 1], s = box.max.1) ∧
        (∃ s ∈ [(0 : ℚ), 1], 2 * s = box.max.2)) :=
  ⟨by decide, (claim_C10 [(0 : ℚ), 1] (fun s => (s, 2 * s))).2 (by decide)⟩

/-! ## C7: the `rdp` distance computation is division-safe -/

/-- A vanishing sum of squares forces every component to vanish. -/
theorem normSq_eq_zero {D : ℕ} {a : Pt D} (h : normSq a = 0) : ∀ i, a i = 0 := by
  intro i
  rw [normSq, vdot] at h
  have hz := (Finset.sum_eq_zero_iff_of_nonneg
    (fun j _ => mul_self_nonneg (a j))).1 h i (Finset.mem_univ i)
  exact mul_self_eq_zero.1 hz

/-- C7: the `rdp` perpendicular-distance computation normalises the
direction vector only behind the positive-magnitude guard, so it is
well defined on every input: the (squared) distance is never negative,
and for a zero-length direction vector — in particular for coincident
range endpoints — no division happens and the distance degenerates to
the distance from the range start. -/
theorem claim_C7 (D : ℕ) (p q x : Pt D) :
    0 ≤ perpDistSq p q x ∧
      (normSq (vsub q p) = 0 → perpDistSq p q x = normSq (vsub x p)) ∧
      perpDistSq p p x = normSq (vsub x p) := by
  have hnonneg : ∀ (a : Pt D), 0 ≤ normSq a :=
    fun a => Finset.sum_nonneg fun i _ => mul_self_nonneg (a i)
  have hdegen : ∀ (v : Pt D), normSq (vsub v p) = 0 →
      perpDistSq p v x = normSq (vsub x p) := by
    intro v h
    have hc : ∀ i, v i - p i = 0 := by
      intro i
      have := normSq_eq_zero h i
      simpa [vsub] using this
    simp only [perpDistSq, vsub, normSq, vdot] at h ⊢
    simp [hc]
  refine ⟨hnonneg _, hdegen q, ?_⟩
  have hpp : normSq (vsub p p) = 0 := by simp [normSq, vdot, vsub]
  exact hdegen p hpp

/-- A sample planar point. -/
def ptE1 : Pt 2 := ![1, 2]

/-- Another sample planar point. -/
def ptE2 : Pt 2 := ![3, 5]

theorem claim_C7_witness :
    normSq (vsub ptE1 ptE1) = 0 ∧ perpDistSq ptE1 ptE1 ptE2 = normSq (vsub ptE2 ptE1) :=
  ⟨by simp [normSq, vdot, vsub], (claim_C7 2 ptE1 ptE1 ptE2).2.1 (by simp [normSq, vdot, vsub])⟩

/-! ## The `rdp` maximum-distance scan: fold lemmas -/

/-- Complete description of the scan fold from an arbitrary accumulator:
either no intermediate point beats the accumulator (which is returned
unchanged), or the result is the first index attaining the maximum:
everything before it is strictly below, everything after it is at most
the maximum. -/
theorem foldl_scanStep_decomp (dist : ℕ → ℚ) :
    ∀ (l : List ℕ) (acc r : ℚ × ℕ), l.foldl (scanStep dist) acc = r →
      (r = acc ∧ ∀ j ∈ l, dist j ≤ acc.1) ∨
      (∃ l1 l2, l = l1 ++ r.2 :: l2 ∧ dist r.2 = r.1 ∧ acc.1 < r.1 ∧
        (∀ j ∈ l1, dist j < r.1) ∧ (∀ j ∈ l2, dist j ≤ r.1)) := by
  intro l
  induction l with
  | nil =>
    intro acc r hr
    rw [List.foldl_nil] at hr
    exact Or.inl ⟨hr.symm, by simp⟩
  | cons x xs ih =>
    intro acc r hr
    rw [List.foldl_cons] at hr
    by_cases hlt : acc.1 < dist x
    · rw [scanStep, if_pos hlt] at hr
      rcases ih (dist x, x) r hr with ⟨heq, hall⟩ | ⟨l1, l2, hsplit, hd, hacc, h1, h2⟩
      · refine Or.inr ⟨[], xs, ?_, ?_, ?_, by simp, ?_⟩
        · rw [heq]; simp
        · rw [heq]
        · rw [heq]; exact hlt
        · rw [heq]; exact hall
      · refine Or.inr ⟨x :: l1, l2, by rw [hsplit, List.cons_append], hd,
          lt_trans hlt hacc, ?_, h2⟩
        intro j hj
        rcases List.mem_cons.1 hj with rfl | hj'
        · exact hacc
        · exact h1 j hj'
    · rw [scanStep, if_neg hlt] at hr
      rcases ih acc r hr with ⟨heq, hall⟩ | ⟨l1, l2, hsplit, hd, hacc, h1, h2⟩
      · refine Or.inl ⟨heq, ?_⟩
        intro j hj
        rcases List.mem_cons.1 hj with rfl | hj'
        · exact not_lt.1 hlt
        · exact hall j hj'
      · refine Or.inr ⟨x :: l1, l2, by rw [hsplit, List.cons_append], hd, hacc, ?_, h2⟩
        intro j hj
        rcases List.mem_cons.1 hj with rfl | hj'
        · exact lt_of_le_of_lt (not_lt.1 hlt) hacc
        · exact h1 j hj'

/-- The scan maximum is nonnegative. -/
theorem scanFold_nonneg (dist : ℕ → ℚ) (l : List ℕ) : 0 ≤ (scanFold dist l).1 := by
  rcases hsf : scanFold dist l with ⟨M, i0⟩
  rw [scanFold] at hsf
  rcases foldl_scanStep_decomp dist l (0, 0) (M, i0) hsf with ⟨heq, _⟩ | ⟨_, _, _, _, hacc, _, _⟩
  · simp only [Prod.mk.injEq] at heq
    simp [heq.1]
  · exact le_of_lt hacc

/-- Every scanned distance is at most the scan maximum. -/
theorem scanFold_le (dist : ℕ → ℚ) (l : List ℕ) : ∀ j ∈ l, dist j ≤ (scanFold dist l).1 := by
  intro j hj
  rcases hsf : scanFold dist l with ⟨M, i0⟩
  rw [scanFold] at hsf
  rcases foldl_scanStep_decomp dist l (0, 0) (M, i0) hsf with ⟨heq, hall⟩ |
    ⟨l1, l2, hsplit, hd, _, h1, h2⟩
  · simp only [Prod.mk.injEq] at heq
    simpa [heq.1] using hall j hj
  · rw [hsplit] at hj
    rcases List.mem_append.1 hj with hj1 | hj2
    · exact le_of_lt (h1 j hj1)
    · rcases List.mem_cons.1 hj2 with rfl | hj3
      · exact le_of_eq hd
      · exact h2 j hj3

/-- A strictly positive scan maximum is attained at a scanned index. -/
theorem scanFold_pos_mem (dist : ℕ → ℚ) (l : List ℕ) (h : 0 < (scanFold dist l).1) :
    (scanFold dist l).2 ∈ l ∧ dist (scanFold dist l).2 = (scanFold dist l).1 := by
  rcases hsf : scanFold dist l with ⟨M, i0⟩
  rw [hsf] at h
  rw [scanFold] at hsf
  rcases foldl_scanStep_decomp dist l (0, 0) (M, i0) hsf with ⟨heq, _⟩ |
    ⟨l1, l2, hsplit, hd, _, _, _⟩
  · simp only [Prod.mk.injEq] at heq
    rw [heq.1] at h
    exact absurd h (lt_irrefl 0)
  · constructor
    · rw [hsplit]
      exact List.mem_append_right l1 (List.mem_cons_self _ _)
    · exact hd

/-- Indices strictly before the (positive) scan maximum's index score
strictly below the maximum: the scan picks the first maximum. -/
theorem scanFold_first (dist : ℕ → ℚ) (l : List ℕ) (h : 0 < (scanFold dist l).1)
    (hchain : l.Chain' (· < ·)) :
    ∀ j ∈ l, j < (scanFold dist l).2 → dist j < (scanFold dist l).1 := by
  intro j hj hlt
  rcases hsf : scanFold dist l with ⟨M, i0⟩
  rw [hsf] at h hlt
  rw [scanFold] at hsf
  rcases foldl_scanStep_decomp dist l (0, 0) (M, i0) hsf with ⟨heq, _⟩ |
    ⟨l1, l2, hsplit, hd, _, h1, h2⟩
  · simp only [Prod.mk.injEq] at heq
    rw [heq.1] at h
    exact absurd h (lt_irrefl 0)
  · rw [hsplit] at hj hchain
    rcases List.mem_append.1 hj with hj1 | hj2
    · exact h1 j hj1
    · rcases List.mem_cons.1 hj2 with rfl | hj3
      · exact absurd hlt (lt_irrefl _)
      · have hp : List.Pairwise (· < ·) ((M, i0).2 :: l2) :=
          (List.pairwise_append.1 (List.chain'_iff_pairwise.1 hchain)).2.1
        have := (List.pairwise_cons.1 hp).1 j hj3
        exact absurd (lt_trans this hlt) (lt_irrefl _)

/-- A fold whose inputs never beat the accumulator leaves it unchanged. -/
theorem foldl_scanStep_fixed (dist : ℕ → ℚ) :
    ∀ (l : List ℕ) (acc : ℚ × ℕ), (∀ j ∈ l, dist j ≤ acc.1) →
      l.foldl (scanStep dist) acc = acc := by
  intro l
  induction l with
  | nil => intro acc _; rfl
  | cons x xs ih =>
    intro acc hall
    rw [List.foldl_cons, scanStep, if_neg (not_lt.2 (hall x (List.mem_cons_self x xs)))]
    exact ih acc fun j hj => hall j (List.mem_cons_of_mem x hj)

/-- The scan of a list that stays strictly below a positive maximum `M`,
attains `M`, then stays at most `M`, returns `M` at the attaining index. -/
theorem scanFold_first_max (dist : ℕ → ℚ) (l1 l2 : List ℕ) (i0 : ℕ) (M : ℚ)
    (hM : 0 < M) (h1 : ∀ j ∈ l1, dist j < M) (hi0 : dist i0 = M)
    (h2 : ∀ j ∈ l2, dist j ≤ M) :
    scanFold dist (l1 ++ i0 :: l2) = (M, i0) := by
  rw [scanFold, List.foldl_append]
  have hacc1 : (l1.foldl (scanStep dist) (0, 0)).1 < M := by
    rcases hfold : l1.foldl (scanStep dist) (0, 0) with ⟨M1, i1⟩
    rcases foldl_scanStep_decomp dist l1 (0, 0) (M1, i1) hfold with ⟨heq, _⟩ |
      ⟨l1a, l1b, hsplit, hd, _, _, _⟩
    · simp only [Prod.mk.injEq] at heq
      simp [heq.1, hM]
    · rw [← hd]
      apply h1
      rw [hsplit]
      exact List.mem_append_right l1a (List.mem_cons_self _ _)
  rw [List.foldl_cons, scanStep, if_pos (by rw [hi0]; exact hacc1), hi0]
  exact foldl_scanStep_fixed dist l2 (M, i0) h2

/-! ## Index arithmetic of the `rdp` sub-ranges -/

/-- `start_idx ≤ last_idx`. -/
theorem lastIdx_ge (s st endN : ℕ) : s ≤ lastIdx s st endN := Nat.le_add_left s _

/-- `step` divides `last_idx - start_idx`. -/
theorem lastIdx_dvd (s st endN : ℕ) : st ∣ lastIdx s st endN - s := by
  rw [lastIdx, Nat.add_sub_cancel]
  exact dvd_mul_left st _

/-- `last_idx` stays inside a nonempty range. -/
theorem lastIdx_le (s st endN : ℕ) (h : s < endN) : lastIdx s st endN ≤ endN - 1 := by
  rw [lastIdx]
  have h1 : (endN - s - 1) / st * st ≤ endN - s - 1 := Nat.div_mul_le_self _ _
  omega

/-- The first recursive call (`_end_idx = d_max_idx + 1`) ends exactly at
the split index. -/
theorem lastIdx_split (s st m : ℕ) (hs : s ≤ m) (hdvd : st ∣ m - s) :
    lastIdx s st (m + 1) = m := by
  rw [lastIdx]
  have h1 : m + 1 - s - 1 = m - s := by omega
  rw [h1, Nat.div_mul_cancel hdvd]
  omega

/-- The second recursive call (`start_idx = d_max_idx`, same `end_idx`)
keeps the same `last_idx`. -/
theorem lastIdx_tail (s st m endN : ℕ) (hs : s ≤ m) (hdvd : st ∣ m - s)
    (hm : m ≤ lastIdx s st endN) (hend : s < endN) :
    lastIdx m st endN = lastIdx s st endN := by
  obtain ⟨a, ha⟩ := hdvd
  have hle : lastIdx s st endN ≤ endN - 1 := lastIdx_le s st endN hend
  rw [lastIdx] at hm hle ⊢
  rw [lastIdx]
  have h1 : (endN - s - 1) / st * st ≤ endN - s - 1 := Nat.div_mul_le_self _ _
  have hq : st * a ≤ endN - s - 1 := by omega
  have hA : endN - m - 1 = (endN - s - 1) - st * a := by omega
  rw [hA, Nat.sub_mul_div _ _ _ hq]
  have h2 : ((endN - s - 1) / st - a) * st = (endN - s - 1) / st * st - a * st :=
    Nat.sub_mul _ _ _
  have h4 : a * st = st * a := mul_comm a st
  omega

/-- Membership in the loop's index list, under the call-site invariant
that `step` divides `last_idx - start_idx`. -/
theorem mem_idxList_iff (s st last j : ℕ) (hst : 0 < st) (hdvd : st ∣ last - s)
    (hs : s ≤ last) :
    j ∈ idxList s st last ↔ s < j ∧ j < last ∧ st ∣ j - s := by
  obtain ⟨c, hc⟩ := hdvd
  have hlast : last = s + st * c := by omega
  have hcnt : (last - s) / st - 1 = c - 1 := by
    rw [hc, Nat.mul_div_cancel_left c hst]
  rw [idxList, hcnt, List.mem_range']
  constructor
  · rintro ⟨i, hi, rfl⟩
    have hc2 : 2 ≤ c := by omega
    have hmono : st * (i + 1) ≤ st * (c - 1) := Nat.mul_le_mul_left st (by omega)
    have he1 : st * (i + 1) = st * i + st := by ring
    have he2 : st * ((c - 1) + 1) = st * (c - 1) + st := by ring
    have he3 : (c - 1) + 1 = c := by omega
    rw [he3] at he2
    exact ⟨by omega, by omega, ⟨i + 1, by omega⟩⟩
  · rintro ⟨h1, h2, k, hk⟩
    have hk1 : 1 ≤ k := by
      rcases k with _ | k'
      · rw [Nat.mul_zero] at hk; omega
      · omega
    have hkc : st * k < st * c := by omega
    have hkc' : k < c := Nat.lt_of_mul_lt_mul_left hkc
    refine ⟨k - 1, by omega, ?_⟩
    have he : st * ((k - 1) + 1) = st * (k - 1) + st := by ring
    have he3 : (k - 1) + 1 = k := by omega
    rw [he3] at he
    omega

/-- The two-point guard: the range holds at least two points iff
`start_idx + step ≤ last_idx` iff `end_idx ≥ start_idx + step + 1`. -/
theorem rangeTwo_iff (s st endN : ℕ) (hst : 0 < st) :
    s + st ≤ lastIdx s st endN ↔ s + st + 1 ≤ endN := by
  rw [lastIdx]
  constructor
  · intro h
    have h1 : (endN - s - 1) / st * st ≤ endN - s - 1 := Nat.div_mul_le_self _ _
    omega
  · intro h
    have h3 : 1 ≤ (endN - s - 1) / st := (Nat.le_div_iff_mul_le hst).2 (by omega)
    have h4 : 1 * st ≤ (endN - s - 1) / st * st := Nat.mul_le_mul_right st h3
    omega

/-- The loop indices are strictly increasing. -/
theorem idxList_chain (s st last : ℕ) (hst : 0 < st) :
    (idxList s st last).Chain' (· < ·) := by
  rw [idxList]
  exact (List.pairwise_lt_range' _ _ st hst).chain'

/-! ## Basic `rdpF` facts: unfolding, fuel monotonicity, determinism -/

/-- One-step unfolding of `rdpF`. -/
theorem rdpF_succ {D : ℕ} (fuel : ℕ) (P : List (Pt D)) (eps : ℚ) (out0 : List (Pt D))
    (s st : ℕ) (e : ℤ) :
    rdpF (fuel + 1) P eps out0 s st e =
      if lastIdx s st (resolveEnd e P) + 1 - s < 2 then some out0
      else
        if eps < 0 ∨ eps ^ 2 <
            (scanFold (rdpDist P s (lastIdx s st (resolveEnd e P)))
              (idxList s st (lastIdx s st (resolveEnd e P)))).1 then
          match
            rdpF fuel P eps [] s st
              (((scanFold (rdpDist P s (lastIdx s st (resolveEnd e P)))
                (idxList s st (lastIdx s st (resolveEnd e P)))).2 : ℤ) + 1),
            rdpF fuel P eps []
              (scanFold (rdpDist P s (lastIdx s st (resolveEnd e P)))
                (idxList s st (lastIdx s st (resolveEnd e P)))).2 st
              ((resolveEnd e P : ℕ) : ℤ) with
          | some r1, some r2 => some (r1.dropLast ++ r2)
          | _, _ => none
        else
          some [P.getD s (dflt D), P.getD (lastIdx s st (resolveEnd e P)) (dflt D)] := rfl

/-- A `some` result survives one more unit of fuel. -/
theorem rdpF_mono {D : ℕ} :
    ∀ (fuel : ℕ) (P : List (Pt D)) (eps : ℚ) (out0 : List (Pt D)) (s st : ℕ) (e : ℤ)
      (res : List (Pt D)),
      rdpF fuel P eps out0 s st e = some res →
      rdpF (fuel + 1) P eps out0 s st e = some res := by
  intro fuel
  induction fuel with
  | zero =>
    intro P eps out0 s st e res h
    exact absurd h (by rw [rdpF]; exact fun hc => Option.noConfusion hc)
  | succ n ih =>
    intro P eps out0 s st e res h
    rw [rdpF_succ] at h
    rw [rdpF_succ]
    by_cases h2 : lastIdx s st (resolveEnd e P) + 1 - s < 2
    · rw [if_pos h2] at h ⊢; exact h
    · rw [if_neg h2] at h ⊢
      by_cases hc : eps < 0 ∨ eps ^ 2 <
          (scanFold (rdpDist P s (lastIdx s st (resolveEnd e P)))
            (idxList s st (lastIdx s st (resolveEnd e P)))).1
      · rw [if_pos hc] at h ⊢
        rcases hr1 : rdpF n P eps [] s st
            (((scanFold (rdpDist P s (lastIdx s st (resolveEnd e P)))
              (idxList s st (lastIdx s st (resolveEnd e P)))).2 : ℤ) + 1) with _ | r1 <;>
          rcases hr2 : rdpF n P eps []
              (scanFold (rdpDist P s (lastIdx s st (resolveEnd e P)))
                (idxList s st (lastIdx s st (resolveEnd e P)))).2 st
              ((resolveEnd e P : ℕ) : ℤ) with _ | r2 <;>
          rw [hr1, hr2] at h
        · exact absurd h (fun hc' => Option.noConfusion hc')
        · exact absurd h (fun hc' => Option.noConfusion hc')
        · exact absurd h (fun hc' => Option.noConfusion hc')
        · rw [ih _ _ _ _ _ _ _ hr1, ih _ _ _ _ _ _ _ hr2]
          exact h
      · rw [if_neg hc] at h ⊢; exact h

/-- A `some` result survives any fuel increase. -/
theorem rdpF_mono_le {D : ℕ} {fuel fuel' : ℕ} (hle : fuel ≤ fuel') (P : List (Pt D))
    (eps : ℚ) (out0 : List (Pt D)) (s st : ℕ) (e : ℤ) (res : List (Pt D))
    (h : rdpF fuel P eps out0 s st e = some res) :
    rdpF fuel' P eps out0 s st e = some res := by
  obtain ⟨k, rfl⟩ := Nat.exists_eq_add_of_le hle
  clear hle
  induction k with
  | zero => exact h
  | succ j ihj => exact rdpF_mono _ _ _ _ _ _ _ _ ihj

/-- `rdpF` is deterministic across fuels. -/
theorem rdpF_det {D : ℕ} {f1 f2 : ℕ} (P : List (Pt D)) (eps : ℚ) (out0 : List (Pt D))
    (s st : ℕ) (e : ℤ) (x y : List (Pt D))
    (hx : rdpF f1 P eps out0 s st e = some x) (hy : rdpF f2 P eps out0 s st e = some y) :
    x = y := by
  have hx' := rdpF_mono_le (Nat.le_max_left f1 f2) P eps out0 s st e x hx
  have hy' := rdpF_mono_le (Nat.le_max_right f1 f2) P eps out0 s st e y hy
  rw [hx'] at hy'
  exact Option.some.inj hy'

/-- `rdpF` only reads `e` through the resolved end index. -/
theorem rdpF_endCongr {D : ℕ} (fuel : ℕ) (P : List (Pt D)) (eps : ℚ) (out0 : List (Pt D))
    (s st : ℕ) (e e' : ℤ) (h : resolveEnd e P = resolveEnd e' P) :
    rdpF fuel P eps out0 s st e = rdpF fuel P eps out0 s st e' := by
  cases fuel with
  | zero => rfl
  | succ n => rw [rdpF_succ, rdpF_succ, h]

/-- A natural end index resolves to itself. -/
theorem resolveEnd_natCast {D : ℕ} (P : List (Pt D)) (n : ℕ) (h : 0 < n) :
    resolveEnd (n : ℤ) P = n := by
  rw [resolveEnd, if_pos (by exact_mod_cast h), Int.toNat_natCast]

/-- A scan that never exceeds zero is the untouched accumulator. -/
theorem scanFold_eq_zero (dist : ℕ → ℚ) (l : List ℕ) (h : (scanFold dist l).1 ≤ 0) :
    scanFold dist l = (0, 0) := by
  rcases hsf : scanFold dist l with ⟨M, i0⟩
  rw [hsf] at h
  rw [scanFold] at hsf
  rcases foldl_scanStep_decomp dist l (0, 0) (M, i0) hsf with ⟨heq, _⟩ |
    ⟨_, _, _, _, hacc, _, _⟩
  · exact heq
  · exact absurd (lt_of_lt_of_le hacc h) (lt_irrefl 0)

/-! ## `rdp` on a negative epsilon: the recursion never returns

When `epsilon < 0`, the split condition `d_max > epsilon` always holds;
whenever the scanned range still has at least two points, the second
recursive call again has at least two points, so the recursion never
bottoms out: the source overflows the stack, and the embedding returns
`none` for every recursion budget. -/
theorem rdpF_neg_none {D : ℕ} :
    ∀ (fuel : ℕ) (P : List (Pt D)) (eps : ℚ) (out0 : List (Pt D)) (s st : ℕ) (e : ℤ),
      eps < 0 → 0 < st → s + st ≤ lastIdx s st (resolveEnd e P) →
      rdpF fuel P eps out0 s st e = none := by
  intro fuel
  induction fuel with
  | zero => intros; rfl
  | succ n ih =>
    intro P eps out0 s st e heps hst hrange
    rw [rdpF_succ]
    rw [if_neg (by omega), if_pos (Or.inl heps)]
    have hendN : s + st + 1 ≤ resolveEnd e P :=
      (rangeTwo_iff s st (resolveEnd e P) hst).1 hrange
    have hres : resolveEnd ((resolveEnd e P : ℕ) : ℤ) P = resolveEnd e P :=
      resolveEnd_natCast P _ (by omega)
    have hsecond : rdpF n P eps []
        (scanFold (rdpDist P s (lastIdx s st (resolveEnd e P)))
          (idxList s st (lastIdx s st (resolveEnd e P)))).2 st
        ((resolveEnd e P : ℕ) : ℤ) = none := by
      apply ih P eps [] _ st _ heps hst
      rw [hres]
      rcases hsf : scanFold (rdpDist P s (lastIdx s st (resolveEnd e P)))
          (idxList s st (lastIdx s st (resolveEnd e P))) with ⟨M, i0⟩
      by_cases hpos : 0 < M
      · have hmem := scanFold_pos_mem _ _ (by rw [hsf]; exact hpos)
        rw [hsf] at hmem
        have hmem' := (mem_idxList_iff s st (lastIdx s st (resolveEnd e P)) i0 hst
          (lastIdx_dvd s st (resolveEnd e P)) (lastIdx_ge s st (resolveEnd e P))).1 hmem.1
        rcases hmem' with ⟨hgt, hlt, hdvd⟩
        have htail : lastIdx i0 st (resolveEnd e P) = lastIdx s st (resolveEnd e P) :=
          lastIdx_tail s st i0 (resolveEnd e P) (le_of_lt hgt) hdvd (le_of_lt hlt) (by omega)
        rw [htail]
        have hdvd2 : st ∣ lastIdx s st (resolveEnd e P) - i0 := by
          have he : lastIdx s st (resolveEnd e P) - i0 =
              (lastIdx s st (resolveEnd e P) - s) - (i0 - s) := by omega
          rw [he]
          exact Nat.dvd_sub' (lastIdx_dvd s st (resolveEnd e P)) hdvd
        obtain ⟨k, hk⟩ := hdvd2
        have hk1 : 1 ≤ k := by
          rcases k with _ | k'
          · rw [Nat.mul_zero] at hk; omega
          · omega
        have : st * 1 ≤ st * k := Nat.mul_le_mul_left st hk1
        omega
      · have hzero : scanFold (rdpDist P s (lastIdx s st (resolveEnd e P)))
            (idxList s st (lastIdx s st (resolveEnd e P))) = (0, 0) := by
          apply scanFold_eq_zero
          rw [hsf]
          exact not_lt.1 hpos
        rw [hsf] at hzero
        have hi0 : i0 = 0 := congrArg Prod.snd hzero
        rw [hi0]
        exact (rangeTwo_iff 0 st (resolveEnd e P) hst).2 (by omega)
    rcases rdpF n P eps [] s st
        (((scanFold (rdpDist P s (lastIdx s st (resolveEnd e P)))
          (idxList s st (lastIdx s st (resolveEnd e P)))).2 : ℤ) + 1) with _ | r1 <;>
      rw [hsecond]

/-! ## Termination of `rdp` for a nonnegative epsilon -/

/-- When the split branch is taken with `0 ≤ eps`, the split index is a
proper interior loop index of the range. -/
theorem split_mem {D : ℕ} (P : List (Pt D)) (eps : ℚ) (s st L : ℕ)
    (hst : 0 < st) (hdvd : st ∣ L - s) (hs : s ≤ L) (heps : 0 ≤ eps)
    (hc : eps < 0 ∨ eps ^ 2 < (scanFold (rdpDist P s L) (idxList s st L)).1) :
    s < (scanFold (rdpDist P s L) (idxList s st L)).2 ∧
      (scanFold (rdpDist P s L) (idxList s st L)).2 < L ∧
      st ∣ (scanFold (rdpDist P s L) (idxList s st L)).2 - s := by
  have hMpos : 0 < (scanFold (rdpDist P s L) (idxList s st L)).1 := by
    rcases hc with hc | hc
    · exact absurd hc (not_lt.2 heps)
    · exact lt_of_le_of_lt (sq_nonneg eps) hc
  have hmem := (scanFold_pos_mem _ _ hMpos).1
  exact (mem_idxList_iff s st L _ hst hdvd hs).1 hmem

/-- A range with at least two points has `start + step ≤ last`, given the
two-point guard failed and the call-site divisibility. -/
theorem range_ge_two {s st L : ℕ} (hst : 0 < st) (hdvd : st ∣ L - s) (hs : s ≤ L)
    (h2 : ¬(L + 1 - s < 2)) : s + st ≤ L := by
  obtain ⟨k, hk⟩ := hdvd
  have hk1 : 1 ≤ k := by
    rcases k with _ | k'
    · rw [Nat.mul_zero] at hk; omega
    · omega
  have : st * 1 ≤ st * k := Nat.mul_le_mul_left st hk1
  omega

/-- For `0 ≤ eps` the recursion terminates once the budget exceeds the
index span of the range. -/
theorem rdpF_terminates {D : ℕ} :
    ∀ (fuel : ℕ) (P : List (Pt D)) (eps : ℚ) (out0 : List (Pt D)) (s st : ℕ) (e : ℤ),
      0 ≤ eps → 0 < st → lastIdx s st (resolveEnd e P) - s < fuel →
      ∃ res, rdpF fuel P eps out0 s st e = some res := by
  intro fuel
  induction fuel with
  | zero => intro P eps out0 s st e _ _ h; omega
  | succ n ih =>
    intro P eps out0 s st e heps hst hfuel
    rw [rdpF_succ]
    by_cases h2 : lastIdx s st (resolveEnd e P) + 1 - s < 2
    · rw [if_pos h2]; exact ⟨out0, rfl⟩
    · rw [if_neg h2]
      have hsL : s ≤ lastIdx s st (resolveEnd e P) := lastIdx_ge s st (resolveEnd e P)
      have hdvdL : st ∣ lastIdx s st (resolveEnd e P) - s := lastIdx_dvd s st (resolveEnd e P)
      have hrange : s + st ≤ lastIdx s st (resolveEnd e P) := range_ge_two hst hdvdL hsL h2
      have hendN : s + st + 1 ≤ resolveEnd e P :=
        (rangeTwo_iff s st (resolveEnd e P) hst).1 hrange
      by_cases hcond : eps < 0 ∨ eps ^ 2 <
          (scanFold (rdpDist P s (lastIdx s st (resolveEnd e P)))
            (idxList s st (lastIdx s st (resolveEnd e P)))).1
      · rw [if_pos hcond]
        obtain ⟨hgt, hlt, hdvdm⟩ :=
          split_mem P eps s st (lastIdx s st (resolveEnd e P)) hst hdvdL hsL heps hcond
        have hcast : (((scanFold (rdpDist P s (lastIdx s st (resolveEnd e P)))
            (idxList s st (lastIdx s st (resolveEnd e P)))).2 : ℤ) + 1) =
            (((scanFold (rdpDist P s (lastIdx s st (resolveEnd e P)))
              (idxList s st (lastIdx s st (resolveEnd e P)))).2 + 1 : ℕ) : ℤ) := by
          push_cast
          ring
        have hend1 : resolveEnd (((scanFold (rdpDist P s (lastIdx s st (resolveEnd e P)))
            (idxList s st (lastIdx s st (resolveEnd e P)))).2 : ℤ) + 1) P =
            (scanFold (rdpDist P s (lastIdx s st (resolveEnd e P)))
              (idxList s st (lastIdx s st (resolveEnd e P)))).2 + 1 := by
          rw [hcast]
          exact resolveEnd_natCast P _ (Nat.succ_pos _)
        have hL1 : lastIdx s st ((scanFold (rdpDist P s (lastIdx s st (resolveEnd e P)))
            (idxList s st (lastIdx s st (resolveEnd e P)))).2 + 1) =
            (scanFold (rdpDist P s (lastIdx s st (resolveEnd e P)))
              (idxList s st (lastIdx s st (resolveEnd e P)))).2 :=
          lastIdx_split s st _ (le_of_lt hgt) hdvdm
        obtain ⟨r1, hr1⟩ := ih P eps [] s st
          (((scanFold (rdpDist P s (lastIdx s st (resolveEnd e P)))
            (idxList s st (lastIdx s st (resolveEnd e P)))).2 : ℤ) + 1) heps hst
          (by rw [hend1, hL1]; omega)
        have hend2 : resolveEnd ((resolveEnd e P : ℕ) : ℤ) P = resolveEnd e P :=
          resolveEnd_natCast P _ (by omega)
        have hL2 : lastIdx ((scanFold (rdpDist P s (lastIdx s st (resolveEnd e P)))
            (idxList s st (lastIdx s st (resolveEnd e P)))).2) st (resolveEnd e P) =
            lastIdx s st (resolveEnd e P) :=
          lastIdx_tail s st _ (resolveEnd e P) (le_of_lt hgt) hdvdm (le_of_lt hlt) (by omega)
        obtain ⟨r2, hr2⟩ := ih P eps []
          ((scanFold (rdpDist P s (lastIdx s st (resolveEnd e P)))
            (idxList s st (lastIdx s st (resolveEnd e P)))).2) st
          ((resolveEnd e P : ℕ) : ℤ) heps hst (by rw [hend2, hL2]; omega)
        rw [hr1, hr2]
        exact ⟨r1.dropLast ++ r2, rfl⟩
      · rw [if_neg hcond]
        exact ⟨_, rfl⟩

/-! ## Structure of `rdp` outputs -/

/-- A positive divisible gap is at least one step wide. -/
theorem le_of_dvd_lt {st a b : ℕ} (hst : 0 < st) (hdvd : st ∣ b - a) (hab : a < b) :
    a + st ≤ b := by
  obtain ⟨k, hk⟩ := hdvd
  have hk1 : 1 ≤ k := by
    rcases k with _ | k'
    · rw [Nat.mul_zero] at hk; omega
    · omega
  have := Nat.mul_le_mul_left st hk1
  omega

/-- Every terminating `rdp` call on a range of at least two points (with
`0 ≤ eps`) returns a subsequence of the visited points: there is a
strictly increasing index list starting at `start_idx`, ending at
`last_idx`, stepping inside the range on multiples of `step`, of length
between `2` and the number of visited points, whose pointwise image is
the output. -/
theorem rdpF_spec {D : ℕ} :
    ∀ (fuel : ℕ) (P : List (Pt D)) (eps : ℚ) (out0 : List (Pt D)) (s st : ℕ) (e : ℤ)
      (res : List (Pt D)),
      0 ≤ eps → 0 < st → s + st ≤ lastIdx s st (resolveEnd e P) →
      rdpF fuel P eps out0 s st e = some res →
      ∃ I : List ℕ,
        res = I.map (fun i => P.getD i (dflt D)) ∧ I.Chain' (· < ·) ∧
        I.head? = some s ∧ I.getLast? = some (lastIdx s st (resolveEnd e P)) ∧
        (∀ i ∈ I, s ≤ i ∧ i ≤ lastIdx s st (resolveEnd e P) ∧ st ∣ i - s) ∧
        2 ≤ I.length ∧ I.length ≤ (lastIdx s st (resolveEnd e P) - s) / st + 1 := by
  intro fuel
  induction fuel with
  | zero =>
    intro P eps out0 s st e res _ _ _ h
    exact absurd h (by rw [rdpF]; exact fun hc => Option.noConfusion hc)
  | succ n ih =>
    intro P eps out0 s st e res heps hst hrange hres
    rw [rdpF_succ] at hres
    rw [if_neg (by omega : ¬(lastIdx s st (resolveEnd e P) + 1 - s < 2))] at hres
    by_cases hcond : eps < 0 ∨ eps ^ 2 <
        (scanFold (rdpDist P s (lastIdx s st (resolveEnd e P)))
          (idxList s st (lastIdx s st (resolveEnd e P)))).1
    · rw [if_pos hcond] at hres
      obtain ⟨hgt, hlt, hdvdm⟩ := split_mem P eps s st _ hst (lastIdx_dvd s st _)
        (lastIdx_ge s st _) heps hcond
      set m2 := (scanFold (rdpDist P s (lastIdx s st (resolveEnd e P)))
        (idxList s st (lastIdx s st (resolveEnd e P)))).2 with hm2
      have hendN : s + st + 1 ≤ resolveEnd e P :=
        (rangeTwo_iff s st (resolveEnd e P) hst).1 hrange
      rcases hr1 : rdpF n P eps [] s st ((m2 : ℤ) + 1) with _ | r1 <;>
        rcases hr2 : rdpF n P eps [] m2 st ((resolveEnd e P : ℕ) : ℤ) with _ | r2 <;>
        rw [hr1, hr2] at hres
      · exact absurd hres (fun hc => Option.noConfusion hc)
      · exact absurd hres (fun hc => Option.noConfusion hc)
      · exact absurd hres (fun hc => Option.noConfusion hc)
      obtain rfl : r1.dropLast ++ r2 = res := Option.some.inj hres
      have hend1 : resolveEnd ((m2 : ℤ) + 1) P = m2 + 1 := by
        have hcast : ((m2 : ℤ) + 1) = ((m2 + 1 : ℕ) : ℤ) := by push_cast; ring
        rw [hcast]
        exact resolveEnd_natCast P _ (Nat.succ_pos _)
      have hL1 : lastIdx s st (m2 + 1) = m2 := lastIdx_split s st _ (le_of_lt hgt) hdvdm
      have hrange1 : s + st ≤ lastIdx s st (resolveEnd ((m2 : ℤ) + 1) P) := by
        rw [hend1, hL1]
        exact le_of_dvd_lt hst hdvdm hgt
      obtain ⟨I1, hmap1, hchain1, hhead1, hlast1, hmem1, hlen1, hlenub1⟩ :=
        ih P eps [] s st _ r1 heps hst hrange1 hr1
      rw [hend1, hL1] at hlast1 hmem1 hlenub1
      have hdvdLm : st ∣ lastIdx s st (resolveEnd e P) - m2 := by
        have he : lastIdx s st (resolveEnd e P) - m2 =
            (lastIdx s st (resolveEnd e P) - s) - (m2 - s) := by omega
        rw [he]
        exact Nat.dvd_sub' (lastIdx_dvd s st _) hdvdm
      have hend2 : resolveEnd ((resolveEnd e P : ℕ) : ℤ) P = resolveEnd e P :=
        resolveEnd_natCast P _ (by omega)
      have hL2 : lastIdx m2 st (resolveEnd e P) = lastIdx s st (resolveEnd e P) :=
        lastIdx_tail s st m2 _ (le_of_lt hgt) hdvdm (le_of_lt hlt) (by omega)
      have hrange2 : m2 + st ≤ lastIdx m2 st (resolveEnd ((resolveEnd e P : ℕ) : ℤ) P) := by
        rw [hend2, hL2]
        exact le_of_dvd_lt hst hdvdLm hlt
      obtain ⟨I2, hmap2, hchain2, hhead2, hlast2, hmem2, hlen2, hlenub2⟩ :=
        ih P eps [] m2 st _ r2 heps hst hrange2 hr2
      rw [hend2, hL2] at hlast2 hmem2 hlenub2
      have hI1ne : I1 ≠ [] := by
        intro hc
        rw [hc] at hlen1
        exact absurd hlen1 (by simp)
      have hI2ne : I2 ≠ [] := by
        intro hc
        rw [hc] at hlen2
        exact absurd hlen2 (by simp)
      have hgl1 : I1.getLast hI1ne = m2 := (List.getLast_eq_iff_getLast_eq_some hI1ne).2 hlast1
      have hsplit1 : I1.dropLast ++ [m2] = I1 := by
        rw [← hgl1]
        exact List.dropLast_concat_getLast hI1ne
      refine ⟨I1.dropLast ++ I2, ?_, ?_, ?_, ?_, ?_, ?_, ?_⟩
      · rw [hmap1, hmap2, List.map_append, List.map_dropLast]
      · rw [List.chain'_append]
        have hchain1' := hchain1
        rw [← hsplit1, List.chain'_append] at hchain1'
        refine ⟨hchain1'.1, hchain2, ?_⟩
        intro x hx y hy
        rw [hhead2, Option.mem_some_iff] at hy
        have h3 := hchain1'.2.2 x hx m2 (by rw [List.head?_cons, Option.mem_some_iff])
        exact hy ▸ h3
      · rcases I1 with _ | ⟨a, t1⟩
        · exact absurd rfl hI1ne
        rcases t1 with _ | ⟨b, t2⟩
        · exact absurd hlen1 (by simp)
        have ha : a = s := by
          rw [List.head?_cons] at hhead1
          exact Option.some.inj hhead1
        rw [List.dropLast_cons₂, List.cons_append, List.head?_cons, ha]
      · rw [List.getLast?_append_of_ne_nil _ hI2ne]
        exact hlast2
      · intro i hi
        rcases List.mem_append.1 hi with hi1 | hi2
        · obtain ⟨h1, h2, h3⟩ := hmem1 i ((List.dropLast_sublist I1).subset hi1)
          exact ⟨h1, le_trans h2 (le_of_lt hlt), h3⟩
        · obtain ⟨h1, h2, h3⟩ := hmem2 i hi2
          refine ⟨le_trans (le_of_lt hgt) h1, h2, ?_⟩
          obtain ⟨u, hu⟩ := h3
          obtain ⟨v, hv⟩ := hdvdm
          exact ⟨u + v, by rw [Nat.mul_add]; omega⟩
      · rw [List.length_append, List.length_dropLast]
        omega
      · rw [List.length_append, List.length_dropLast]
        obtain ⟨v, hv⟩ := hdvdm
        obtain ⟨u, hu⟩ := hdvdLm
        have d1 : (m2 - s) / st = v := by rw [hv, Nat.mul_div_cancel_left v hst]
        have d2 : (lastIdx s st (resolveEnd e P) - m2) / st = u := by
          rw [hu, Nat.mul_div_cancel_left u hst]
        have hL_s : lastIdx s st (resolveEnd e P) - s = st * (v + u) := by
          rw [Nat.mul_add]
          omega
        have d3 : (lastIdx s st (resolveEnd e P) - s) / st = v + u := by
          rw [hL_s, Nat.mul_div_cancel_left _ hst]
        omega
    · rw [if_neg hcond] at hres
      obtain rfl : [P.getD s (dflt D), P.getD (lastIdx s st (resolveEnd e P)) (dflt D)]
          = res := Option.some.inj hres
      refine ⟨[s, lastIdx s st (resolveEnd e P)], by simp, ?_, rfl, ?_, ?_, by simp, ?_⟩
      · rw [List.chain'_pair]
        omega
      · rw [List.getLast?_cons_cons, List.getLast?_singleton]
      · intro i hi
        rcases List.mem_cons.1 hi with rfl | hi'
        · exact ⟨le_refl _, by omega, ⟨0, by omega⟩⟩
        rcases List.mem_cons.1 hi' with rfl | hi''
        · exact ⟨by omega, le_refl _, lastIdx_dvd s st _⟩
        · exact absurd hi'' (List.not_mem_nil i)
      · have h1 : 1 ≤ (lastIdx s st (resolveEnd e P) - s) / st :=
          (Nat.le_div_iff_mul_le hst).2 (by omega)
        simp only [List.length_cons, List.length_nil]
        omega

/-- If every intermediate point of the range lies within `eps` of the
chord (on squares: `dist ≤ eps^2`), the call collapses the range to its
two endpoints. -/
theorem rdpF_flat {D : ℕ} (fuel : ℕ) (P : List (Pt D)) (eps : ℚ) (out0 : List (Pt D))
    (s st : ℕ) (e : ℤ) (heps : 0 ≤ eps) (hst : 0 < st)
    (hrange : s + st ≤ lastIdx s st (resolveEnd e P))
    (hflat : ∀ j ∈ idxList s st (lastIdx s st (resolveEnd e P)),
      rdpDist P s (lastIdx s st (resolveEnd e P)) j ≤ eps ^ 2) :
    rdpF (fuel + 1) P eps out0 s st e =
      some [P.getD s (dflt D), P.getD (lastIdx s st (resolveEnd e P)) (dflt D)] := by
  rw [rdpF_succ, if_neg (by omega)]
  have hM : (scanFold (rdpDist P s (lastIdx s st (resolveEnd e P)))
      (idxList s st (lastIdx s st (resolveEnd e P)))).1 ≤ eps ^ 2 := by
    by_cases hpos : 0 < (scanFold (rdpDist P s (lastIdx s st (resolveEnd e P)))
        (idxList s st (lastIdx s st (resolveEnd e P)))).1
    · obtain ⟨hmem, hd⟩ := scanFold_pos_mem _ _ hpos
      rw [← hd]
      exact hflat _ hmem
    · exact le_trans (not_lt.1 hpos) (sq_nonneg eps)
  rw [if_neg (by push_neg; exact ⟨heps, hM⟩)]

/-! ## C2: shape of `rdp` outputs -/

/-- C2 (amended to a nonnegative epsilon): on a sub-range of at least two
points and with `0 ≤ eps`, `rdp` terminates and produces an output that
begins with the range's first point, ends with the range's last point,
has between `2` and `|points|` elements, and collapses to exactly the two
endpoints when every intermediate point of the range is within `eps`
perpendicular distance of the chord. -/
theorem claim_C2 (D : ℕ) (P : List (Pt D)) (eps : ℚ) (s st : ℕ) (e : ℤ) (fuel : ℕ)
    (heps : 0 ≤ eps) (hst : 0 < st)
    (hlen : lastIdx s st (resolveEnd e P) < P.length)
    (hrange : s + st ≤ lastIdx s st (resolveEnd e P))
    (hfuel : lastIdx s st (resolveEnd e P) - s < fuel) :
    ∃ res, rdpF fuel P eps [] s st e = some res ∧
      res.head? = some (P.getD s (dflt D)) ∧
      res.getLast? = some (P.getD (lastIdx s st (resolveEnd e P)) (dflt D)) ∧
      2 ≤ res.length ∧ res.length ≤ P.length ∧
      ((∀ j ∈ idxList s st (lastIdx s st (resolveEnd e P)),
          rdpDist P s (lastIdx s st (resolveEnd e P)) j ≤ eps ^ 2) →
        res = [P.getD s (dflt D), P.getD (lastIdx s st (resolveEnd e P)) (dflt D)]) := by
  obtain ⟨res, hres⟩ := rdpF_terminates fuel P eps [] s st e heps hst hfuel
  obtain ⟨I, hmap, hchain, hhead, hlast, hmem, hlen2, hlenub⟩ :=
    rdpF_spec fuel P eps [] s st e res heps hst hrange hres
  refine ⟨res, hres, ?_, ?_, ?_, ?_, ?_⟩
  · rw [hmap, List.head?_map, hhead]
    rfl
  · rw [hmap, List.getLast?_map, hlast]
    rfl
  · rw [hmap, List.length_map]
    exact hlen2
  · rw [hmap, List.length_map]
    have hdb : (lastIdx s st (resolveEnd e P) - s) / st ≤ lastIdx s st (resolveEnd e P) - s :=
      Nat.div_le_self _ _
    omega
  · intro hflat
    rcases fuel with _ | fuel'
    · omega
    have hcollapse := rdpF_flat fuel' P eps [] s st e heps hst hrange hflat
    rw [hres] at hcollapse
    exact Option.some.inj hcollapse

/-- A three-point planar polyline with a spike in the middle. -/
def spikePts : List (Pt 2) := [![0, 0], ![5, 7], ![10, 0]]

theorem claim_C2_witness :
    ((0 : ℚ) ≤ 2 ∧ 0 < 1 ∧ lastIdx 0 1 (resolveEnd (-1) spikePts) < spikePts.length ∧
        0 + 1 ≤ lastIdx 0 1 (resolveEnd (-1) spikePts) ∧
        lastIdx 0 1 (resolveEnd (-1) spikePts) - 0 < 3) ∧
      ∃ res, rdpF 3 spikePts 2 [] 0 1 (-1) = some res ∧
        res.head? = some (spikePts.getD 0 (dflt 2)) ∧
        res.getLast? = some (spikePts.getD (lastIdx 0 1 (resolveEnd (-1) spikePts)) (dflt 2)) ∧
        2 ≤ res.length ∧ res.length ≤ spikePts.length ∧
        ((∀ j ∈ idxList 0 1 (lastIdx 0 1 (resolveEnd (-1) spikePts)),
            rdpDist spikePts 0 (lastIdx 0 1 (resolveEnd (-1) spikePts)) j ≤ 2 ^ 2) →
          res = [spikePts.getD 0 (dflt 2),
            spikePts.getD (lastIdx 0 1 (resolveEnd (-1) spikePts)) (dflt 2)]) :=
  ⟨⟨by norm_num, by norm_num, by decide, by decide, by decide⟩,
    claim_C2 2 spikePts 2 0 1 (-1) 3 (by norm_num) (by norm_num) (by decide) (by decide)
      (by decide)⟩

/-- Three coincident planar points. -/
def flatPts : List (Pt 2) := [![0, 0], ![0, 0], ![0, 0]]

/-- C2 counterexample: with a negative epsilon (`epsilon = -1`) on three
coincident points, `d_max = 0 > epsilon` splits at `d_max_idx = 0` and the
second recursive call repeats the original arguments: the source recurses
forever and no output is produced, for any recursion budget. -/
theorem claim_C2_counterexample : ¬ rdpProduces flatPts (-1) := by
  rintro ⟨fuel, res, h⟩
  rw [rdpF_neg_none fuel flatPts (-1) [] 0 1 (-1) (by norm_num) (by norm_num)
    (by decide)] at h
  exact Option.noConfusion h

/-! ## Helpers for the idempotence of `rdp` -/

/-- `getD` through `drop`. -/
theorem getD_drop {α : Type} (l : List α) (k i : ℕ) (d : α) (h : k ≤ i) :
    (l.drop k).getD (i - k) d = l.getD i d := by
  rw [List.getD_eq_getElem?_getD, List.getD_eq_getElem?_getD, List.getElem?_drop,
    Nat.add_sub_cancel' h]

/-- `getD` through `map`, inside the list. -/
theorem getD_map_lt {α β : Type} (f : α → β) (l : List α) (j : ℕ) (d : β) (d0 : α)
    (h : j < l.length) : (l.map f).getD j d = f (l.getD j d0) := by
  rw [List.getD_eq_getElem?_getD, List.getD_eq_getElem?_getD, List.getElem?_map,
    List.getElem?_eq_getElem h]
  simp

/-- `getD` through `dropLast`, inside the list. -/
theorem getD_dropLast {α : Type} (l : List α) (i : ℕ) (d : α) (h : i < l.length - 1) :
    l.dropLast.getD i d = l.getD i d := by
  rw [List.getD_eq_getElem _ _ (by rw [List.length_dropLast]; omega),
    List.getD_eq_getElem _ _ (by omega), List.getElem_dropLast]

/-- The head determines index 0. -/
theorem getD_zero_of_head? {α : Type} (l : List α) (x d : α) (h : l.head? = some x) :
    l.getD 0 d = x := by
  cases l with
  | nil => exact absurd h (fun hc => Option.noConfusion hc)
  | cons a t =>
    rw [List.head?_cons] at h
    exact Option.some.inj h

/-- The last element determines index `length - 1`. -/
theorem getD_last_of_getLast? {α : Type} (l : List α) (x d : α) (h : l.getLast? = some x) :
    l.getD (l.length - 1) d = x := by
  have hne : l ≠ [] := by
    intro hc
    rw [hc] at h
    exact Option.noConfusion h
  have hlt : l.length - 1 < l.length := by
    cases l with
    | nil => exact absurd rfl hne
    | cons a t => simp
  rw [List.getD_eq_getElem _ _ hlt, ← List.getLast_eq_getElem l hne]
  exact (List.getLast_eq_iff_getLast_eq_some hne).2 h

/-- The scan only reads the distances of the scanned indices. -/
theorem scanFold_congr (d1 d2 : ℕ → ℚ) (l : List ℕ) (h : ∀ j ∈ l, d1 j = d2 j) :
    scanFold d1 l = scanFold d2 l := by
  rw [scanFold, scanFold]
  suffices haux : ∀ (l' : List ℕ) (acc : ℚ × ℕ), (∀ j ∈ l', d1 j = d2 j) →
      l'.foldl (scanStep d1) acc = l'.foldl (scanStep d2) acc by
    exact haux l (0, 0) h
  intro l'
  induction l' with
  | nil => intro acc _; rfl
  | cons x xs ih =>
    intro acc hall
    rw [List.foldl_cons, List.foldl_cons, scanStep, scanStep,
      hall x (List.mem_cons_self x xs)]
    exact ih _ (fun j hj => hall j (List.mem_cons_of_mem x hj))

/-- Scanning the index-shifted list with the index-shifted distances
yields the same maximum at the shifted index. -/
theorem foldl_scanStep_shift (d1 d2 : ℕ → ℚ) (k : ℕ) :
    ∀ (l : List ℕ) (acc1 acc2 : ℚ × ℕ),
      (∀ j ∈ l, k ≤ j ∧ d2 (j - k) = d1 j) →
      acc2.1 = acc1.1 → acc2.2 = acc1.2 - k →
      (l.map (fun j => j - k)).foldl (scanStep d2) acc2 =
        ((l.foldl (scanStep d1) acc1).1, (l.foldl (scanStep d1) acc1).2 - k) := by
  intro l
  induction l with
  | nil =>
    intro acc1 acc2 _ h1 h2
    rw [List.map_nil, List.foldl_nil, List.foldl_nil]
    exact Prod.ext h1 h2
  | cons x xs ih =>
    intro acc1 acc2 hagree h1 h2
    obtain ⟨hkx, hdx⟩ := hagree x (List.mem_cons_self x xs)
    rw [List.map_cons, List.foldl_cons, List.foldl_cons]
    by_cases hlt : acc1.1 < d1 x
    · have e1 : scanStep d1 acc1 x = (d1 x, x) := by rw [scanStep, if_pos hlt]
      have e2 : scanStep d2 acc2 (x - k) = (d1 x, x - k) := by
        rw [scanStep, if_pos (by rw [hdx, h1]; exact hlt), hdx]
      rw [e1, e2]
      exact ih _ _ (fun j hj => hagree j (List.mem_cons_of_mem x hj)) rfl rfl
    · have e1 : scanStep d1 acc1 x = acc1 := by rw [scanStep, if_neg hlt]
      have e2 : scanStep d2 acc2 (x - k) = acc2 := by
        rw [scanStep, if_neg (by rw [hdx, h1]; exact hlt)]
      rw [e1, e2]
      exact ih _ _ (fun j hj => hagree j (List.mem_cons_of_mem x hj)) h1 h2

/-- Shifting the start of a `range'` subtracts from each element. -/
theorem range'_map_sub (k : ℕ) :
    ∀ (n a st : ℕ), k ≤ a →
      List.range' (a - k) n st = (List.range' a n st).map (fun j => j - k) := by
  intro n
  induction n with
  | zero => intro a st _; rfl
  | succ m ih =>
    intro a st hka
    rw [List.range'_succ, List.range'_succ, List.map_cons,
      ← ih (a + st) st (by omega), show a - k + st = a + st - k from by omega]

/-- `_end_idx = -1` resolves to the point count. -/
theorem resolveEnd_neg_one {D : ℕ} (P : List (Pt D)) : resolveEnd (-1) P = P.length := by
  rw [resolveEnd, if_neg (by norm_num)]

/-- `last_idx` of a full stride-1 range. -/
theorem lastIdx_zero_one (n : ℕ) : lastIdx 0 1 n = n - 1 := by
  simp [lastIdx]

/-- The loop indices of a full stride-1 range. -/
theorem idxList_zero_one (last : ℕ) : idxList 0 1 last = List.range' 1 (last - 1) 1 := by
  simp [idxList]

/-- `rdp` with an explicit positive end index reads only the points below
that index. -/
theorem rdpF_pointsCongr {D : ℕ} :
    ∀ (fuel : ℕ) (P Q : List (Pt D)) (eps : ℚ) (out0 : List (Pt D)) (s st eN : ℕ),
      0 < eN → 0 < st →
      (∀ i, i < eN → P.getD i (dflt D) = Q.getD i (dflt D)) →
      rdpF fuel P eps out0 s st (eN : ℤ) = rdpF fuel Q eps out0 s st (eN : ℤ) := by
  intro fuel
  induction fuel with
  | zero => intros; rfl
  | succ n ih =>
    intro P Q eps out0 s st eN heN hst hagree
    rw [rdpF_succ, rdpF_succ, resolveEnd_natCast P eN heN, resolveEnd_natCast Q eN heN]
    by_cases h2 : lastIdx s st eN + 1 - s < 2
    · rw [if_pos h2, if_pos h2]
    · rw [if_neg h2, if_neg h2]
      have hsL : s ≤ lastIdx s st eN := lastIdx_ge s st eN
      have hsN : s < eN := by
        by_contra hc
        push_neg at hc
        have hzero : lastIdx s st eN = s := by
          rw [lastIdx, show eN - s - 1 = 0 from by omega]
          simp
        omega
      have hLlt : lastIdx s st eN < eN := by
        have := lastIdx_le s st eN hsN
        omega
      have hscan : scanFold (rdpDist P s (lastIdx s st eN)) (idxList s st (lastIdx s st eN)) =
          scanFold (rdpDist Q s (lastIdx s st eN)) (idxList s st (lastIdx s st eN)) := by
        apply scanFold_congr
        intro j hj
        obtain ⟨hj1, hj2, _⟩ := (mem_idxList_iff s st _ j hst (lastIdx_dvd s st eN) hsL).1 hj
        rw [rdpDist, rdpDist, hagree s (by omega), hagree _ (by omega), hagree j (by omega)]
      rw [hscan]
      by_cases hcond : eps < 0 ∨ eps ^ 2 <
          (scanFold (rdpDist Q s (lastIdx s st eN)) (idxList s st (lastIdx s st eN))).1
      · rw [if_pos hcond, if_pos hcond]
        have hm2lt : (scanFold (rdpDist Q s (lastIdx s st eN))
            (idxList s st (lastIdx s st eN))).2 < eN := by
          by_cases hpos : 0 < (scanFold (rdpDist Q s (lastIdx s st eN))
              (idxList s st (lastIdx s st eN))).1
          · have hmem := (scanFold_pos_mem _ _ hpos).1
            obtain ⟨_, hj2, _⟩ :=
              (mem_idxList_iff s st _ _ hst (lastIdx_dvd s st eN) hsL).1 hmem
            omega
          · have hz := scanFold_eq_zero _ _ (not_lt.1 hpos)
            rw [hz]
            exact heN
        have hcall1 : rdpF n P eps [] s st
            (((scanFold (rdpDist Q s (lastIdx s st eN)) (idxList s st (lastIdx s st eN))).2
              : ℤ) + 1) =
            rdpF n Q eps [] s st
            (((scanFold (rdpDist Q s (lastIdx s st eN)) (idxList s st (lastIdx s st eN))).2
              : ℤ) + 1) := by
          rw [show (((scanFold (rdpDist Q s (lastIdx s st eN))
              (idxList s st (lastIdx s st eN))).2 : ℤ) + 1) =
              (((scanFold (rdpDist Q s (lastIdx s st eN))
                (idxList s st (lastIdx s st eN))).2 + 1 : ℕ) : ℤ) from by push_cast; ring]
          exact ih P Q eps [] s st _ (Nat.succ_pos _) hst
            (fun i hi => hagree i (by omega))
        have hcall2 : rdpF n P eps []
            ((scanFold (rdpDist Q s (lastIdx s st eN)) (idxList s st (lastIdx s st eN))).2)
            st ((eN : ℕ) : ℤ) =
            rdpF n Q eps []
            ((scanFold (rdpDist Q s (lastIdx s st eN)) (idxList s st (lastIdx s st eN))).2)
            st ((eN : ℕ) : ℤ) :=
          ih P Q eps [] _ st eN heN hst hagree
        rw [hcall1, hcall2]
      · rw [if_neg hcond, if_neg hcond, hagree s (by omega), hagree _ (by omega)]

/-- Dropping a common index prefix shifts an `rdp` call (with a
nonnegative epsilon and an explicit positive end index). -/
theorem rdpF_shift {D : ℕ} :
    ∀ (fuel : ℕ) (P : List (Pt D)) (eps : ℚ) (out0 : List (Pt D)) (k s st eN : ℕ),
      0 ≤ eps → 0 < st → k ≤ s → k < eN →
      rdpF fuel P eps out0 s st (eN : ℤ) =
        rdpF fuel (P.drop k) eps out0 (s - k) st ((eN - k : ℕ) : ℤ) := by
  intro fuel
  induction fuel with
  | zero => intros; rfl
  | succ n ih =>
    intro P eps out0 k s st eN heps hst hks hkeN
    rw [rdpF_succ, rdpF_succ, resolveEnd_natCast P eN (by omega),
      resolveEnd_natCast (P.drop k) (eN - k) (by omega)]
    have hsL : s ≤ lastIdx s st eN := lastIdx_ge s st eN
    have hkL : k ≤ lastIdx s st eN := le_trans hks hsL
    have hLshift : lastIdx (s - k) st (eN - k) = lastIdx s st eN - k := by
      rw [lastIdx, lastIdx, show eN - k - (s - k) - 1 = eN - s - 1 from by omega]
      omega
    rw [hLshift]
    by_cases h2 : lastIdx s st eN + 1 - s < 2
    · rw [if_pos h2]
      rw [if_pos (by omega : lastIdx s st eN - k + 1 - (s - k) < 2)]
    · rw [if_neg h2]
      rw [if_neg (by omega : ¬(lastIdx s st eN - k + 1 - (s - k) < 2))]
      have hidx : idxList (s - k) st (lastIdx s st eN - k) =
          (idxList s st (lastIdx s st eN)).map (fun j => j - k) := by
        rw [idxList, idxList,
          show lastIdx s st eN - k - (s - k) = lastIdx s st eN - s from by omega,
          show s - k + st = (s + st) - k from by omega]
        exact range'_map_sub k _ (s + st) st (by omega)
      have hdagree : ∀ j ∈ idxList s st (lastIdx s st eN), k ≤ j ∧
          rdpDist (P.drop k) (s - k) (lastIdx s st eN - k) (j - k) =
            rdpDist P s (lastIdx s st eN) j := by
        intro j hj
        obtain ⟨hj1, hj2, _⟩ :=
          (mem_idxList_iff s st _ j hst (lastIdx_dvd s st eN) hsL).1 hj
        refine ⟨by omega, ?_⟩
        rw [rdpDist, rdpDist, getD_drop P k s _ hks, getD_drop P k _ _ hkL,
          getD_drop P k j _ (by omega)]
      have hscan : scanFold (rdpDist (P.drop k) (s - k) (lastIdx s st eN - k))
          (idxList (s - k) st (lastIdx s st eN - k)) =
          ((scanFold (rdpDist P s (lastIdx s st eN)) (idxList s st (lastIdx s st eN))).1,
            (scanFold (rdpDist P s (lastIdx s st eN))
              (idxList s st (lastIdx s st eN))).2 - k) := by
        rw [hidx, scanFold, scanFold]
        exact foldl_scanStep_shift _ _ k _ (0, 0) (0, 0) hdagree rfl (Nat.zero_sub k).symm
      have hs1 : (scanFold (rdpDist (P.drop k) (s - k) (lastIdx s st eN - k))
          (idxList (s - k) st (lastIdx s st eN - k))).1 =
          (scanFold (rdpDist P s (lastIdx s st eN)) (idxList s st (lastIdx s st eN))).1 := by
        rw [hscan]
      have hs2 : (scanFold (rdpDist (P.drop k) (s - k) (lastIdx s st eN - k))
          (idxList (s - k) st (lastIdx s st eN - k))).2 =
          (scanFold (rdpDist P s (lastIdx s st eN)) (idxList s st (lastIdx s st eN))).2 - k := by
        rw [hscan]
      rw [hs1, hs2]
      by_cases hcond : eps < 0 ∨ eps ^ 2 <
          (scanFold (rdpDist P s (lastIdx s st eN)) (idxList s st (lastIdx s st eN))).1
      · rw [if_pos hcond, if_pos hcond]
        obtain ⟨hgt, hlt, hdvdm⟩ :=
          split_mem P eps s st _ hst (lastIdx_dvd s st eN) hsL heps hcond
        have hc1 : rdpF n P eps [] s st
            (((scanFold (rdpDist P s (lastIdx s st eN))
              (idxList s st (lastIdx s st eN))).2 : ℤ) + 1) =
            rdpF n (P.drop k) eps [] (s - k) st
            (((((scanFold (rdpDist P s (lastIdx s st eN))
              (idxList s st (lastIdx s st eN))).2 - k : ℕ)) : ℤ) + 1) := by
          rw [show (((scanFold (rdpDist P s (lastIdx s st eN))
              (idxList s st (lastIdx s st eN))).2 : ℤ) + 1) =
              (((scanFold (rdpDist P s (lastIdx s st eN))
                (idxList s st (lastIdx s st eN))).2 + 1 : ℕ) : ℤ) from by push_cast; ring,
            show ((((scanFold (rdpDist P s (lastIdx s st eN))
              (idxList s st (lastIdx s st eN))).2 - k : ℕ) : ℤ) + 1) =
              (((scanFold (rdpDist P s (lastIdx s st eN))
                (idxList s st (lastIdx s st eN))).2 + 1 - k : ℕ) : ℤ) from by
              rw [show (scanFold (rdpDist P s (lastIdx s st eN))
                (idxList s st (lastIdx s st eN))).2 + 1 - k =
                ((scanFold (rdpDist P s (lastIdx s st eN))
                  (idxList s st (lastIdx s st eN))).2 - k) + 1 from by omega]
              push_cast
              ring]
          exact ih P eps [] k s st _ heps hst hks (by omega)
        have hc2 : rdpF n P eps []
            ((scanFold (rdpDist P s (lastIdx s st eN)) (idxList s st (lastIdx s st eN))).2)
            st ((eN : ℕ) : ℤ) =
            rdpF n (P.drop k) eps []
            ((scanFold (rdpDist P s (lastIdx s st eN)) (idxList s st (lastIdx s st eN))).2
              - k) st ((eN - k : ℕ) : ℤ) :=
          ih P eps [] k _ st eN heps hst (by omega) hkeN
        rw [hc1, hc2]
      · rw [if_neg hcond, if_neg hcond, ← getD_drop P k s (dflt D) hks,
          ← getD_drop P k (lastIdx s st eN) (dflt D) hkL]

/-- `rdp` on a two-point list with `0 ≤ eps` returns the two points. -/
theorem rdpF_two {D : ℕ} (A B : Pt D) (eps : ℚ) (heps : 0 ≤ eps) :
    rdpF 1 [A, B] eps [] 0 1 ((2 : ℕ) : ℤ) = some [A, B] := by
  rw [rdpF_succ, resolveEnd_natCast _ 2 (by omega)]
  rw [show lastIdx 0 1 2 = 1 from rfl]
  rw [if_neg (by omega)]
  rw [show idxList 0 1 1 = [] from rfl]
  rw [if_neg (by push_neg; exact ⟨heps, by simpa [scanFold] using sq_nonneg eps⟩)]
  rfl

/-- Idempotence engine: any terminating `rdp` result (on a range of at
least two points, with `0 ≤ eps`) is a fixed point of the default
(full-range, stride-1) `rdp` run.  The re-run's maximum-distance scan
finds the original top-level split point first (everything retained
before it scored strictly below the maximum, everything after at most
the maximum), so the re-run splits in the same place and reproduces both
halves by induction. -/
theorem rdp_idem_aux {D : ℕ} :
    ∀ (fuel : ℕ) (P : List (Pt D)) (eps : ℚ) (s st : ℕ) (e : ℤ) (res : List (Pt D)),
      0 ≤ eps → 0 < st → s + st ≤ lastIdx s st (resolveEnd e P) →
      rdpF fuel P eps [] s st e = some res →
      ∃ g, rdpF g res eps [] 0 1 ((res.length : ℕ) : ℤ) = some res := by
  intro fuel
  induction fuel with
  | zero =>
    intro P eps s st e res _ _ _ h
    exact absurd h (by rw [rdpF]; exact fun hc => Option.noConfusion hc)
  | succ n ih =>
    intro P eps s st e res heps hst hrange hres
    have hsL : s ≤ lastIdx s st (resolveEnd e P) := lastIdx_ge s st _
    have hdvdL : st ∣ lastIdx s st (resolveEnd e P) - s := lastIdx_dvd s st _
    have hendN : s + st + 1 ≤ resolveEnd e P := (rangeTwo_iff s st _ hst).1 hrange
    rw [rdpF_succ] at hres
    rw [if_neg (by omega : ¬(lastIdx s st (resolveEnd e P) + 1 - s < 2))] at hres
    by_cases hcond : eps < 0 ∨ eps ^ 2 <
        (scanFold (rdpDist P s (lastIdx s st (resolveEnd e P)))
          (idxList s st (lastIdx s st (resolveEnd e P)))).1
    case neg =>
      rw [if_neg hcond] at hres
      obtain rfl : [P.getD s (dflt D), P.getD (lastIdx s st (resolveEnd e P)) (dflt D)]
          = res := Option.some.inj hres
      exact ⟨1, rdpF_two _ _ eps heps⟩
    case pos =>
      rw [if_pos hcond] at hres
      set msc := scanFold (rdpDist P s (lastIdx s st (resolveEnd e P)))
        (idxList s st (lastIdx s st (resolveEnd e P))) with hmsc
      have hMpos : 0 < msc.1 := by
        rcases hcond with hc | hc
        · exact absurd hc (not_lt.2 heps)
        · exact lt_of_le_of_lt (sq_nonneg eps) hc
      obtain ⟨hgt, hlt, hdvdm⟩ := split_mem P eps s st _ hst hdvdL hsL heps
        (by rw [← hmsc]; exact hcond)
      rw [← hmsc] at hgt hlt hdvdm
      have horig_le : ∀ j ∈ idxList s st (lastIdx s st (resolveEnd e P)),
          rdpDist P s (lastIdx s st (resolveEnd e P)) j ≤ msc.1 := by
        rw [hmsc]
        exact scanFold_le _ _
      have horig_first : ∀ j ∈ idxList s st (lastIdx s st (resolveEnd e P)),
          j < msc.2 → rdpDist P s (lastIdx s st (resolveEnd e P)) j < msc.1 := by
        rw [hmsc]
        exact scanFold_first _ _ (by rw [← hmsc]; exact hMpos) (idxList_chain _ _ _ hst)
      have horig_attain : rdpDist P s (lastIdx s st (resolveEnd e P)) msc.2 = msc.1 := by
        have h := scanFold_pos_mem (rdpDist P s (lastIdx s st (resolveEnd e P)))
          (idxList s st (lastIdx s st (resolveEnd e P))) (by rw [← hmsc]; exact hMpos)
        rw [← hmsc] at h
        exact h.2
      rcases hr1 : rdpF n P eps [] s st ((msc.2 : ℤ) + 1) with _ | r1 <;>
        rcases hr2 : rdpF n P eps [] msc.2 st ((resolveEnd e P : ℕ) : ℤ) with _ | r2 <;>
        rw [hr1, hr2] at hres
      · exact absurd hres (fun hc => Option.noConfusion hc)
      · exact absurd hres (fun hc => Option.noConfusion hc)
      · exact absurd hres (fun hc => Option.noConfusion hc)
      obtain rfl : r1.dropLast ++ r2 = res := Option.some.inj hres
      have hend1 : resolveEnd ((msc.2 : ℤ) + 1) P = msc.2 + 1 := by
        rw [show ((msc.2 : ℤ) + 1) = ((msc.2 + 1 : ℕ) : ℤ) from by push_cast; ring]
        exact resolveEnd_natCast P _ (Nat.succ_pos _)
      have hL1 : lastIdx s st (msc.2 + 1) = msc.2 := lastIdx_split s st _ (le_of_lt hgt) hdvdm
      have hrange1 : s + st ≤ lastIdx s st (resolveEnd ((msc.2 : ℤ) + 1) P) := by
        rw [hend1, hL1]
        exact le_of_dvd_lt hst hdvdm hgt
      have hdvdLm : st ∣ lastIdx s st (resolveEnd e P) - msc.2 := by
        rw [show lastIdx s st (resolveEnd e P) - msc.2 =
          (lastIdx s st (resolveEnd e P) - s) - (msc.2 - s) from by omega]
        exact Nat.dvd_sub' hdvdL hdvdm
      have hend2 : resolveEnd ((resolveEnd e P : ℕ) : ℤ) P = resolveEnd e P :=
        resolveEnd_natCast P _ (by omega)
      have hL2 : lastIdx msc.2 st (resolveEnd e P) = lastIdx s st (resolveEnd e P) :=
        lastIdx_tail s st msc.2 _ (le_of_lt hgt) hdvdm (le_of_lt hlt) (by omega)
      have hrange2 : msc.2 + st ≤ lastIdx msc.2 st (resolveEnd ((resolveEnd e P : ℕ) : ℤ) P) := by
        rw [hend2, hL2]
        exact le_of_dvd_lt hst hdvdLm hlt
      obtain ⟨I1, hmap1, hchain1, hhead1, hlast1, hmem1, hlen1, _⟩ :=
        rdpF_spec n P eps [] s st _ r1 heps hst hrange1 hr1
      rw [hend1, hL1] at hlast1 hmem1
      obtain ⟨I2, hmap2, hchain2, hhead2, hlast2, hmem2, hlen2, _⟩ :=
        rdpF_spec n P eps [] msc.2 st _ r2 heps hst hrange2 hr2
      rw [hend2, hL2] at hlast2 hmem2
      obtain ⟨g1, hg1⟩ := ih P eps s st ((msc.2 : ℤ) + 1) r1 heps hst hrange1 hr1
      obtain ⟨g2, hg2⟩ := ih P eps msc.2 st ((resolveEnd e P : ℕ) : ℤ) r2 heps hst hrange2 hr2
      have hlr1 : r1.length = I1.length := by rw [hmap1, List.length_map]
      have hlr2 : r2.length = I2.length := by rw [hmap2, List.length_map]
      have hr1ge2 : 2 ≤ r1.length := by omega
      have hr2ge2 : 2 ≤ r2.length := by omega
      have hr2ne : r2 ≠ [] := by
        intro hc
        rw [hc] at hr2ge2
        exact absurd hr2ge2 (by simp)
      have hlenL' : (r1.dropLast ++ r2).length = r1.length - 1 + r2.length := by
        rw [List.length_append, List.length_dropLast]
      -- junction and boundary values
      have hr1last : r1.getD (r1.length - 1) (dflt D) = P.getD msc.2 (dflt D) := by
        apply getD_last_of_getLast?
        rw [hmap1, List.getLast?_map, hlast1]
        rfl
      have hr2head : r2.getD 0 (dflt D) = P.getD msc.2 (dflt D) := by
        apply getD_zero_of_head?
        rw [hmap2, List.head?_map, hhead2]
        rfl
      have hL'left : ∀ j, j < r1.length - 1 →
          (r1.dropLast ++ r2).getD j (dflt D) = r1.getD j (dflt D) := by
        intro j hj
        rw [List.getD_append _ _ _ _ (by rw [List.length_dropLast]; omega),
          getD_dropLast _ _ _ (by omega)]
      have hL'right : ∀ j, r1.length - 1 ≤ j →
          (r1.dropLast ++ r2).getD j (dflt D) = r2.getD (j - (r1.length - 1)) (dflt D) := by
        intro j hj
        rw [List.getD_append_right _ _ _ _ (by rw [List.length_dropLast]; omega),
          List.length_dropLast]
      have hL'0 : (r1.dropLast ++ r2).getD 0 (dflt D) = P.getD s (dflt D) := by
        rw [hL'left 0 (by omega)]
        apply getD_zero_of_head?
        rw [hmap1, List.head?_map, hhead1]
        rfl
      have hL'last : (r1.dropLast ++ r2).getD ((r1.dropLast ++ r2).length - 1) (dflt D) =
          P.getD (lastIdx s st (resolveEnd e P)) (dflt D) := by
        apply getD_last_of_getLast?
        rw [List.getLast?_append_of_ne_nil _ hr2ne, hmap2, List.getLast?_map, hlast2]
        rfl
      -- values through the index lists
      have hval1 : ∀ j, j < I1.length → r1.getD j (dflt D) = P.getD (I1.getD j 0) (dflt D) := by
        intro j hj
        rw [hmap1]
        exact getD_map_lt _ I1 j _ 0 hj
      have hval2 : ∀ j, j < I2.length → r2.getD j (dflt D) = P.getD (I2.getD j 0) (dflt D) := by
        intro j hj
        rw [hmap2]
        exact getD_map_lt _ I2 j _ 0 hj
      have hI1strict : ∀ j, 0 < j → j < I1.length - 1 →
          s < I1.getD j 0 ∧ I1.getD j 0 < msc.2 ∧ st ∣ I1.getD j 0 - s := by
        intro j hj0 hjlt
        have hp := List.chain'_iff_pairwise.1 hchain1
        have h0j : I1.getD 0 0 < I1.getD j 0 := by
          rw [List.getD_eq_getElem _ _ (by omega : 0 < I1.length),
            List.getD_eq_getElem _ _ (by omega : j < I1.length)]
          apply List.pairwise_iff_getElem.1 hp 0 j <;> omega
        have hjl : I1.getD j 0 < I1.getD (I1.length - 1) 0 := by
          rw [List.getD_eq_getElem _ _ (by omega : j < I1.length),
            List.getD_eq_getElem _ _ (by omega : I1.length - 1 < I1.length)]
          apply List.pairwise_iff_getElem.1 hp j (I1.length - 1) <;> omega
        have h00 : I1.getD 0 0 = s := getD_zero_of_head? _ _ _ hhead1
        have hll : I1.getD (I1.length - 1) 0 = msc.2 := getD_last_of_getLast? _ _ _ hlast1
        have hmemj : I1.getD j 0 ∈ I1 := by
          rw [List.getD_eq_getElem _ _ (by omega : j < I1.length)]
          exact List.getElem_mem _
        refine ⟨by rw [h00] at h0j; exact h0j, by rw [hll] at hjl; exact hjl,
          (hmem1 _ hmemj).2.2⟩
      have hI2strict : ∀ j, 0 < j → j < I2.length - 1 →
          msc.2 < I2.getD j 0 ∧ I2.getD j 0 < lastIdx s st (resolveEnd e P) ∧
            st ∣ I2.getD j 0 - msc.2 := by
        intro j hj0 hjlt
        have hp := List.chain'_iff_pairwise.1 hchain2
        have h0j : I2.getD 0 0 < I2.getD j 0 := by
          rw [List.getD_eq_getElem _ _ (by omega : 0 < I2.length),
            List.getD_eq_getElem _ _ (by omega : j < I2.length)]
          apply List.pairwise_iff_getElem.1 hp 0 j <;> omega
        have hjl : I2.getD j 0 < I2.getD (I2.length - 1) 0 := by
          rw [List.getD_eq_getElem _ _ (by omega : j < I2.length),
            List.getD_eq_getElem _ _ (by omega : I2.length - 1 < I2.length)]
          apply List.pairwise_iff_getElem.1 hp j (I2.length - 1) <;> omega
        have h00 : I2.getD 0 0 = msc.2 := getD_zero_of_head? _ _ _ hhead2
        have hll : I2.getD (I2.length - 1) 0 = lastIdx s st (resolveEnd e P) :=
          getD_last_of_getLast? _ _ _ hlast2
        have hmemj : I2.getD j 0 ∈ I2 := by
          rw [List.getD_eq_getElem _ _ (by omega : j < I2.length)]
          exact List.getElem_mem _
        refine ⟨by rw [h00] at h0j; exact h0j, by rw [hll] at hjl; exact hjl,
          (hmem2 _ hmemj).2.2⟩
      -- the re-run's scan
      have hdist' : ∀ j, rdpDist (r1.dropLast ++ r2) 0 ((r1.dropLast ++ r2).length - 1) j =
          perpDistSq (P.getD s (dflt D)) (P.getD (lastIdx s st (resolveEnd e P)) (dflt D))
            ((r1.dropLast ++ r2).getD j (dflt D)) := by
        intro j
        rw [rdpDist, hL'0, hL'last]
      have hd'left : ∀ j ∈ List.range' 1 (r1.length - 1 - 1) 1,
          rdpDist (r1.dropLast ++ r2) 0 ((r1.dropLast ++ r2).length - 1) j < msc.1 := by
        intro j hj
        rw [List.mem_range'_1] at hj
        have hjI : j < I1.length - 1 := by omega
        obtain ⟨hs1, hs2, hs3⟩ := hI1strict j (by omega) hjI
        rw [hdist', hL'left j (by omega), hval1 j (by omega)]
        refine horig_first _ ?_ (by omega)
        exact (mem_idxList_iff s st _ _ hst hdvdL hsL).2 ⟨hs1, by omega, hs3⟩
      have hd'mid : rdpDist (r1.dropLast ++ r2) 0 ((r1.dropLast ++ r2).length - 1)
          (r1.length - 1) = msc.1 := by
        rw [hdist', hL'right _ (le_refl _), Nat.sub_self, hr2head]
        exact horig_attain
      have hd'right : ∀ j ∈ List.range' (r1.length - 1 + 1) (r2.length - 2) 1,
          rdpDist (r1.dropLast ++ r2) 0 ((r1.dropLast ++ r2).length - 1) j ≤ msc.1 := by
        intro j hj
        rw [List.mem_range'_1] at hj
        have hjI : 0 < j - (r1.length - 1) ∧ j - (r1.length - 1) < I2.length - 1 := by omega
        obtain ⟨hs1, hs2, hs3⟩ := hI2strict _ hjI.1 hjI.2
        rw [hdist', hL'right j (by omega), hval2 _ (by omega)]
        refine horig_le _ ?_
        refine (mem_idxList_iff s st _ _ hst hdvdL hsL).2 ⟨by omega, hs2, ?_⟩
        obtain ⟨u, hu⟩ := hs3
        obtain ⟨v, hv⟩ := hdvdm
        exact ⟨u + v, by rw [Nat.mul_add]; omega⟩
      have hrangesplit : List.range' 1 ((r1.dropLast ++ r2).length - 1 - 1) 1 =
          List.range' 1 (r1.length - 1 - 1) 1 ++ (r1.length - 1) ::
            List.range' (r1.length - 1 + 1) (r2.length - 2) 1 := by
        have h1 := List.range'_append 1 (r1.length - 1 - 1) (r2.length - 1) 1
        rw [show (r2.length - 1) + (r1.length - 1 - 1) = (r1.dropLast ++ r2).length - 1 - 1
          from by omega] at h1
        rw [← h1]
        rw [show 1 + 1 * (r1.length - 1 - 1) = r1.length - 1 from by omega,
          show r2.length - 1 = r2.length - 2 + 1 from by omega]
        rw [List.range'_succ]
      have hscan' : scanFold
          (rdpDist (r1.dropLast ++ r2) 0 ((r1.dropLast ++ r2).length - 1))
          (List.range' 1 ((r1.dropLast ++ r2).length - 1 - 1) 1) =
          (msc.1, r1.length - 1) := by
        rw [hrangesplit]
        exact scanFold_first_max _ _ _ _ _ hMpos hd'left hd'mid hd'right
      -- assemble the re-run
      refine ⟨max g1 g2 + 1, ?_⟩
      rw [rdpF_succ, resolveEnd_natCast _ _ (by omega : 0 < (r1.dropLast ++ r2).length),
        lastIdx_zero_one]
      rw [if_neg (by omega : ¬((r1.dropLast ++ r2).length - 1 + 1 - 0 < 2))]
      rw [idxList_zero_one]
      have hscn1 : (scanFold (rdpDist (r1.dropLast ++ r2) 0 ((r1.dropLast ++ r2).length - 1))
          (List.range' 1 ((r1.dropLast ++ r2).length - 1 - 1) 1)).1 = msc.1 := by
        rw [hscan']
      have hscn2 : (scanFold (rdpDist (r1.dropLast ++ r2) 0 ((r1.dropLast ++ r2).length - 1))
          (List.range' 1 ((r1.dropLast ++ r2).length - 1 - 1) 1)).2 = r1.length - 1 := by
        rw [hscan']
      rw [hscn1, hscn2]
      rw [if_pos hcond]
      -- first recursive call of the re-run reproduces r1
      have hagree1 : ∀ i, i < r1.length - 1 + 1 →
          (r1.dropLast ++ r2).getD i (dflt D) = r1.getD i (dflt D) := by
        intro i hi
        rcases Nat.lt_or_ge i (r1.length - 1) with hi' | hi'
        · exact hL'left i hi'
        · have hieq : i = r1.length - 1 := by omega
          rw [hieq, hL'right _ (le_refl _), Nat.sub_self, hr2head, hr1last]
      have hcall1 : rdpF (max g1 g2) (r1.dropLast ++ r2) eps [] 0 1
          (((r1.length - 1 : ℕ) : ℤ) + 1) = some r1 := by
        rw [show (((r1.length - 1 : ℕ) : ℤ) + 1) = ((r1.length - 1 + 1 : ℕ) : ℤ) from by
          push_cast; ring]
        rw [rdpF_pointsCongr (max g1 g2) (r1.dropLast ++ r2) r1 eps [] 0 1
          (r1.length - 1 + 1) (by omega) one_pos hagree1]
        rw [show r1.length - 1 + 1 = r1.length from by omega]
        exact rdpF_mono_le (Nat.le_max_left g1 g2) _ _ _ _ _ _ _ hg1
      -- second recursive call of the re-run reproduces r2
      have hdrop : (r1.dropLast ++ r2).drop (r1.length - 1) = r2 := by
        rw [show r1.length - 1 = r1.dropLast.length from by rw [List.length_dropLast]]
        exact List.drop_left _ _
      have hcall2 : rdpF (max g1 g2) (r1.dropLast ++ r2) eps [] (r1.length - 1) 1
          (((r1.dropLast ++ r2).length : ℕ) : ℤ) = some r2 := by
        rw [rdpF_shift (max g1 g2) (r1.dropLast ++ r2) eps [] (r1.length - 1)
          (r1.length - 1) 1 ((r1.dropLast ++ r2).length) heps one_pos (le_refl _)
          (by omega)]
        rw [Nat.sub_self, hdrop,
          show (r1.dropLast ++ r2).length - (r1.length - 1) = r2.length from by omega]
        exact rdpF_mono_le (Nat.le_max_right g1 g2) _ _ _ _ _ _ _ hg2
      rw [hcall1, hcall2]

/-! ## C8: idempotence of `rdp` -/

/-- C8: `rdp` is idempotent: whenever the default call
`rdp(P, eps, out)` produces an output, running `rdp` again on that output
with the same epsilon reproduces it unchanged. -/
theorem claim_C8 (D : ℕ) (P : List (Pt D)) (eps : ℚ) (fuel : ℕ) (res : List (Pt D))
    (h : rdpF fuel P eps [] 0 1 (-1) = some res) :
    rdpRun res eps = some res := by
  by_cases hlen : 2 ≤ P.length
  case neg =>
    rcases fuel with _ | f'
    · exact absurd h (by rw [rdpF]; exact fun hc => Option.noConfusion hc)
    rw [rdpF_succ, resolveEnd_neg_one P, lastIdx_zero_one] at h
    rw [if_pos (by omega)] at h
    obtain rfl : ([] : List (Pt D)) = res := Option.some.inj h
    rw [rdpRun, rdpF_succ, resolveEnd_neg_one, lastIdx_zero_one, List.length_nil]
    rw [if_pos (by omega)]
  case pos =>
    have hrange : 0 + 1 ≤ lastIdx 0 1 (resolveEnd (-1) P) := by
      rw [resolveEnd_neg_one P, lastIdx_zero_one]
      omega
    rcases le_or_lt 0 eps with heps | heps
    · obtain ⟨g, hg⟩ := rdp_idem_aux fuel P eps 0 1 (-1) res heps one_pos hrange h
      obtain ⟨I, hmapI, _, _, _, _, hIlen, _⟩ :=
        rdpF_spec fuel P eps [] 0 1 (-1) res heps one_pos hrange h
      have hreslen : 2 ≤ res.length := by
        rw [hmapI, List.length_map]
        exact hIlen
      have hg' : rdpF g res eps [] 0 1 (-1) = some res := by
        rw [rdpF_endCongr g res eps [] 0 1 (-1) ((res.length : ℕ) : ℤ)
          (by rw [resolveEnd_neg_one, resolveEnd_natCast _ _ (by omega)])]
        exact hg
      obtain ⟨res2, hres2⟩ := rdpF_terminates (res.length + 1) res eps [] 0 1 (-1) heps
        one_pos (by rw [resolveEnd_neg_one, lastIdx_zero_one]; omega)
      rw [rdpRun, hres2]
      exact congrArg some (rdpF_det res eps [] 0 1 (-1) res2 res hres2 hg')
    · exact absurd h (by
        rw [rdpF_neg_none fuel P eps [] 0 1 (-1) heps one_pos hrange]
        exact fun hc => Option.noConfusion hc)

/-- A two-point planar polyline. -/
def pairPts : List (Pt 2) := [ptE1, ptE2]

theorem claim_C8_witness :
    rdpF 1 pairPts 0 [] 0 1 (-1) =
        some [pairPts.getD 0 (dflt 2), pairPts.getD 1 (dflt 2)] ∧
      rdpRun [pairPts.getD 0 (dflt 2), pairPts.getD 1 (dflt 2)] 0 =
        some [pairPts.getD 0 (dflt 2), pairPts.getD 1 (dflt 2)] := by
  have h : rdpF (0 + 1) pairPts 0 [] 0 1 (-1) =
      some [pairPts.getD 0 (dflt 2),
        pairPts.getD (lastIdx 0 1 (resolveEnd (-1) pairPts)) (dflt 2)] :=
    rdpF_flat 0 pairPts 0 [] 0 1 (-1) (le_refl 0) one_pos (by decide)
      (by rw [show idxList 0 1 (lastIdx 0 1 (resolveEnd (-1) pairPts)) = [] from rfl]
          intro j hj
          exact absurd hj (List.not_mem_nil j))
  exact ⟨h, claim_C8 2 pairPts 0 1 _ h⟩


/-! ### Golden-ratio constants -/

theorem sqrt5_sq : Real.sqrt 5 * Real.sqrt 5 = 5 :=
  Real.mul_self_sqrt (by norm_num)

theorem two_lt_sqrt5 : 2 < Real.sqrt 5 := by
  rw [show (2 : ℝ) = Real.sqrt 4 from by
    rw [show (4 : ℝ) = 2 ^ 2 from by norm_num, Real.sqrt_sq (by norm_num : (0:ℝ) ≤ 2)]]
  exact Real.sqrt_lt_sqrt (by norm_num) (by norm_num)

theorem sqrt5_lt_three : Real.sqrt 5 < 3 := by
  rw [show (3 : ℝ) = Real.sqrt 9 from by
    rw [show (9 : ℝ) = 3 ^ 2 from by norm_num, Real.sqrt_sq (by norm_num : (0:ℝ) ≤ 3)]]
  exact Real.sqrt_lt_sqrt (by norm_num) (by norm_num)

theorem invphi_pos : 0 < invphi := by
  rw [invphi]; linarith [two_lt_sqrt5]

theorem invphi_lt_one : invphi < 1 := by
  rw [invphi]; linarith [sqrt5_lt_three]

theorem invphi2_pos : 0 < invphi2 := by
  rw [invphi2]; linarith [sqrt5_lt_three]

theorem invphi2_lt_invphi : invphi2 < invphi := by
  rw [invphi2, invphi]; linarith [two_lt_sqrt5]

theorem invphi2_eq : invphi2 = 1 - invphi := by
  rw [invphi2, invphi]; ring

theorem invphi_sq : invphi * invphi = invphi2 := by
  rw [invphi, invphi2]
  linear_combination (1 / 4 : ℝ) * sqrt5_sq

/-! ### Loop invariant -/

/-- Invariant of the `golden_section_search` loop: the bracket `[a, b]` has
width `h`, the probes sit at the golden sections, the cached values are the
probe values of `f`, the minimiser stays inside the bracket, and the bracket
stays inside the initial one. -/
def GssInv (f : ℝ → ℝ) (xm a0 b0 : ℝ) (s : GssState) : Prop :=
  s.h = s.b - s.a ∧ s.c = s.a + invphi2 * s.h ∧ s.d = s.a + invphi * s.h ∧
    s.yc = f s.c ∧ s.yd = f s.d ∧
    s.a ≤ xm ∧ xm ≤ s.b ∧ a0 ≤ s.a ∧ s.b ≤ b0 ∧ 0 < s.h

theorem gssStep_inv (f : ℝ → ℝ) (xm a0 b0 : ℝ) (huni : StrictUnimodalOn f xm a0 b0)
    (s : GssState) (hs : GssInv f xm a0 b0 s) :
    GssInv f xm a0 b0 (gssStep f s) ∧ (gssStep f s).h = invphi * s.h := by
  obtain ⟨hh, hc, hd, hyc, hyd, haxm, hxmb, ha0, hb0, hpos⟩ := hs
  obtain ⟨ha0m, hmb0, hdec, hinc⟩ := huni
  have e2h : invphi * (invphi * s.h) = invphi2 * s.h := by
    rw [← mul_assoc, invphi_sq]
  have e1h : invphi2 * s.h = s.h - invphi * s.h := by
    have h1 : invphi2 = 1 - invphi := invphi2_eq
    rw [h1]; ring
  have hq1 : 0 < invphi * s.h := mul_pos invphi_pos hpos
  have hq2 : 0 < invphi2 * s.h := mul_pos invphi2_pos hpos
  have hac : s.a < s.c := by rw [hc]; linarith
  have hcd : s.c < s.d := by
    rw [hc, hd]
    have := mul_lt_mul_of_pos_right invphi2_lt_invphi hpos
    linarith
  have hdb : s.d < s.b := by
    have h1 : invphi * s.h < 1 * s.h := mul_lt_mul_of_pos_right invphi_lt_one hpos
    rw [hd]; linarith
  unfold GssInv gssStep
  by_cases hlt : s.yc < s.yd
  · rw [if_pos hlt]
    dsimp only
    have hxmd : xm ≤ s.d := by
      by_contra hcon
      push_neg at hcon
      have hfd : f s.d < f s.c := hdec s.c s.d (by linarith) hcd (by linarith)
      rw [hyc, hyd] at hlt
      linarith
    refine ⟨⟨?_, rfl, ?_, rfl, hyc, haxm, hxmd, ha0, by linarith, hq1⟩, rfl⟩
    · rw [hd]; ring
    · rw [hc]; linarith
  · rw [if_neg hlt]
    dsimp only
    push_neg at hlt
    have e3h : invphi2 * (invphi * s.h) = invphi * s.h - invphi2 * s.h := by
      linear_combination invphi * s.h * invphi2_eq - e2h
    have hcxm : s.c ≤ xm := by
      by_contra hcon
      push_neg at hcon
      have hfc : f s.c < f s.d := hinc s.c s.d (by linarith) hcd (by linarith)
      rw [hyc, hyd] at hlt
      linarith
    refine ⟨⟨?_, ?_, rfl, hyd, rfl, hcxm, hxmb, by linarith, hb0, hq1⟩, rfl⟩
    · rw [hc]; linarith
    · rw [hd, hc]; linarith

theorem gssIter_inv (f : ℝ → ℝ) (xm a0 b0 : ℝ) (huni : StrictUnimodalOn f xm a0 b0)
    (N : ℕ) (s : GssState) (hs : GssInv f xm a0 b0 s) :
    GssInv f xm a0 b0 ((gssStep f)^[N] s) ∧
      ((gssStep f)^[N] s).h = invphi ^ N * s.h := by
  induction N with
  | zero => simpa using hs
  | succ n ih =>
    obtain ⟨h1, h2⟩ := ih
    obtain ⟨h3, h4⟩ := gssStep_inv f xm a0 b0 huni _ h1
    rw [Function.iterate_succ_apply']
    exact ⟨h3, by rw [h4, h2]; ring⟩

theorem gss_eq (f : ℝ → ℝ) (a b tol : ℝ) (h : ¬ (b - a ≤ tol)) :
    golden_section_search f a b tol =
      if ((gssStep f)^[(gssIterations tol (b - a) - 1).toNat]
            (⟨a, b, b - a, a + invphi2 * (b - a), a + invphi * (b - a),
              f (a + invphi2 * (b - a)), f (a + invphi * (b - a))⟩ : GssState)).yc <
          ((gssStep f)^[(gssIterations tol (b - a) - 1).toNat]
            (⟨a, b, b - a, a + invphi2 * (b - a), a + invphi * (b - a),
              f (a + invphi2 * (b - a)), f (a + invphi * (b - a))⟩ : GssState)).yd
      then 0.5 * (((gssStep f)^[(gssIterations tol (b - a) - 1).toNat]
            (⟨a, b, b - a, a + invphi2 * (b - a), a + invphi * (b - a),
              f (a + invphi2 * (b - a)), f (a + invphi * (b - a))⟩ : GssState)).a +
          ((gssStep f)^[(gssIterations tol (b - a) - 1).toNat]
            (⟨a, b, b - a, a + invphi2 * (b - a), a + invphi * (b - a),
              f (a + invphi2 * (b - a)), f (a + invphi * (b - a))⟩ : GssState)).d)
      else 0.5 * (((gssStep f)^[(gssIterations tol (b - a) - 1).toNat]
            (⟨a, b, b - a, a + invphi2 * (b - a), a + invphi * (b - a),
              f (a + invphi2 * (b - a)), f (a + invphi * (b - a))⟩ : GssState)).c +
          ((gssStep f)^[(gssIterations tol (b - a) - 1).toNat]
            (⟨a, b, b - a, a + invphi2 * (b - a), a + invphi * (b - a),
              f (a + invphi2 * (b - a)), f (a + invphi * (b - a))⟩ : GssState)).b) := by
  unfold golden_section_search
  rw [if_neg h]

/-- C5: `golden_section_search` runs the iteration schedule
`n = ceil(log(tol/(b-a)) / log(invphi))` and for every strictly unimodal `f`
on `[a, b]` with `b - a > tol` it returns the midpoint of a final bracket
`[lo, hi]` that still contains the minimiser and has width at most `tol`;
hence the result is within `tol` of the true minimiser. -/
theorem claim_C5 (f : ℝ → ℝ) (a b tol xm : ℝ) (htol : 0 < tol) (hab : tol < b - a)
    (huni : StrictUnimodalOn f xm a b) :
    ∃ lo hi, lo ≤ xm ∧ xm ≤ hi ∧ hi - lo ≤ tol ∧
      golden_section_search f a b tol = 0.5 * (lo + hi) ∧
      |golden_section_search f a b tol - xm| ≤ tol := by
  have hba : 0 < b - a := by linarith
  have hnd : ¬ (b - a ≤ tol) := by linarith
  have hgss := gss_eq f a b tol hnd
  set s0 : GssState := ⟨a, b, b - a, a + invphi2 * (b - a), a + invphi * (b - a),
    f (a + invphi2 * (b - a)), f (a + invphi * (b - a))⟩ with hs0
  set N : ℕ := (gssIterations tol (b - a) - 1).toNat with hN
  set st : GssState := (gssStep f)^[N] s0 with hst
  have hs0inv : GssInv f xm a b s0 := by
    refine ⟨rfl, rfl, rfl, rfl, rfl, huni.1, huni.2.1, le_refl a, le_refl b, hba⟩
  obtain ⟨hinv, hwid⟩ := gssIter_inv f xm a b huni N s0 hs0inv
  rw [← hst] at hinv hwid
  have hs0h : s0.h = b - a := rfl
  obtain ⟨hih, hic, hid, hiyc, hiyd, hiaxm, hixmb, hia, hib, hipos⟩ := hinv
  obtain ⟨ha0m, hmb0, hdec, hinc⟩ := huni
  -- the iteration count drives the width below tol
  have hkey : invphi ^ (N + 1) * (b - a) ≤ tol := by
    set n : ℤ := gssIterations tol (b - a) with hn
    have htolhpos : 0 < tol / (b - a) := div_pos htol hba
    have htolh1 : tol / (b - a) < 1 := (div_lt_one hba).2 hab
    have hlogt : Real.log (tol / (b - a)) < 0 := Real.log_neg htolhpos htolh1
    have hlogi : Real.log invphi < 0 := Real.log_neg invphi_pos invphi_lt_one
    have hLpos : 0 < Real.log (tol / (b - a)) / Real.log invphi :=
      div_pos_of_neg_of_neg hlogt hlogi
    have hL : Real.log (tol / (b - a)) / Real.log invphi ≤ (n : ℝ) := by
      rw [hn]; unfold gssIterations; exact_mod_cast Int.le_ceil _
    have hn1 : 1 ≤ n := by
      rw [hn]; unfold gssIterations; exact Int.one_le_ceil_iff.mpr hLpos
    have hNcast : (N : ℤ) = n - 1 := by
      rw [hN]; exact Int.toNat_of_nonneg (by omega)
    have hNr : (N : ℝ) = (n : ℝ) - 1 := by exact_mod_cast hNcast
    have h1 : (n : ℝ) * Real.log invphi ≤
        Real.log (tol / (b - a)) / Real.log invphi * Real.log invphi :=
      mul_le_mul_of_nonpos_right hL (le_of_lt hlogi)
    rw [div_mul_cancel₀ _ (ne_of_lt hlogi)] at h1
    have hexp : ((N : ℝ) + 1) * Real.log invphi ≤ Real.log (tol / (b - a)) := by
      rw [hNr, show (n : ℝ) - 1 + 1 = (n : ℝ) from by ring]
      exact h1
    have hpow : invphi ^ (N + 1) ≤ tol / (b - a) := by
      rw [← Real.log_le_log_iff (pow_pos invphi_pos _) htolhpos, Real.log_pow]
      push_cast
      exact hexp
    have h3 := mul_le_mul_of_nonneg_right hpow (le_of_lt hba)
    rwa [div_mul_cancel₀ tol (ne_of_gt hba)] at h3
  have hwh : invphi * st.h ≤ tol := by
    calc invphi * st.h = invphi ^ (N + 1) * (b - a) := by rw [hwid, hs0h]; ring
      _ ≤ tol := hkey
  have e1h : invphi2 * st.h = st.h - invphi * st.h := by
    have h1 : invphi2 = 1 - invphi := invphi2_eq
    rw [h1]; ring
  have hq1 : 0 < invphi * st.h := mul_pos invphi_pos hipos
  have hq2 : 0 < invphi2 * st.h := mul_pos invphi2_pos hipos
  have hac : st.a < st.c := by rw [hic]; linarith
  have hcd : st.c < st.d := by
    rw [hic, hid]
    have := mul_lt_mul_of_pos_right invphi2_lt_invphi hipos
    linarith
  have hdb : st.d < st.b := by
    have h1 : invphi * st.h < 1 * st.h := mul_lt_mul_of_pos_right invphi_lt_one hipos
    rw [hid]; linarith
  by_cases hlt : st.yc < st.yd
  · have hxmd : xm ≤ st.d := by
      by_contra hcon
      push_neg at hcon
      have hfd : f st.d < f st.c := hdec st.c st.d (by linarith) hcd (by linarith)
      rw [hiyc, hiyd] at hlt
      linarith
    have hwle : st.d - st.a ≤ tol := by rw [hid]; linarith
    have hres : golden_section_search f a b tol = 0.5 * (st.a + st.d) := by
      rw [hgss, if_pos hlt]
    refine ⟨st.a, st.d, hiaxm, hxmd, hwle, hres, ?_⟩
    rw [hres, abs_le]
    constructor <;> [skip; skip] <;> linarith
  · have hcxm : st.c ≤ xm := by
      by_contra hcon
      push_neg at hcon
      have hfc : f st.c < f st.d := hinc st.c st.d (by linarith) hcd (by linarith)
      rw [hiyc, hiyd] at hlt
      push_neg at hlt
      linarith
    have hwle : st.b - st.c ≤ tol := by rw [hic]; linarith
    have hres : golden_section_search f a b tol = 0.5 * (st.c + st.b) := by
      rw [hgss, if_neg hlt]
    refine ⟨st.c, st.b, hcxm, hixmb, hwle, hres, ?_⟩
    rw [hres, abs_le]
    constructor <;> [skip; skip] <;> linarith

theorem claim_C5_witness :
    (0 : ℝ) < 1 / 1000000 ∧ (1 / 1000000 : ℝ) < 10 - 0 ∧
      StrictUnimodalOn (fun x : ℝ => (x - 3) ^ 2) 3 0 10 ∧
      ∃ lo hi, lo ≤ 3 ∧ (3 : ℝ) ≤ hi ∧ hi - lo ≤ 1 / 1000000 ∧
        golden_section_search (fun x : ℝ => (x - 3) ^ 2) 0 10 (1 / 1000000) =
          0.5 * (lo + hi) ∧
        |golden_section_search (fun x : ℝ => (x - 3) ^ 2) 0 10 (1 / 1000000) - 3| ≤
          1 / 1000000 := by
  have huni : StrictUnimodalOn (fun x : ℝ => (x - 3) ^ 2) 3 0 10 := by
    refine ⟨by norm_num, by norm_num, ?_, ?_⟩
    · intro x y hx hxy hy
      simp only
      nlinarith
    · intro x y hx hxy hy
      simp only
      nlinarith
  exact ⟨by norm_num, by norm_num, huni,
    claim_C5 (fun x : ℝ => (x - 3) ^ 2) 0 10 (1 / 1000000) 3 (by norm_num) (by norm_num) huni⟩

/-- C6: a degenerate bracket (`b - a ≤ tol`) returns the midpoint
`0.5 * (a + b)` immediately, and the result does not depend on the objective
function at all (it is never evaluated). -/
theorem claim_C6 (f : ℝ → ℝ) (a b tol : ℝ) (h : b - a ≤ tol) :
    golden_section_search f a b tol = 0.5 * (a + b) ∧
      ∀ g : ℝ → ℝ, golden_section_search g a b tol = golden_section_search f a b tol := by
  have key : ∀ g : ℝ → ℝ, golden_section_search g a b tol = 0.5 * (a + b) := by
    intro g
    unfold golden_section_search
    rw [if_pos h]
  exact ⟨key f, fun g => by rw [key g, key f]⟩

theorem claim_C6_witness :
    golden_section_search (fun x : ℝ => x) 0 1 2 = 0.5 * (0 + 1) ∧
      ∀ g : ℝ → ℝ, golden_section_search g 0 1 2 =
        golden_section_search (fun x : ℝ => x) 0 1 2 :=
  claim_C6 (fun x : ℝ => x) 0 1 2 (by norm_num)


end ODR
